import Mathlib

/-!
Sorted-sequence intersection kernels (`include/intersection.h`).

A shallow embedding of the scalar kernels of `SIMDCompressionLib` and of the registry:

* `__frogadvanceUntil`  : galloping (exponential) search;
* `onesidedgallopingintersection` : asymmetric intersection built on it;
* `scalar`, `match_scalar` : dual-cursor merge intersections;
* `IntersectionFactory` : the name-to-kernel registry over a `std::map`.

Conventions of the embedding:

* A C array is a `List Nat`; the `length` arguments stay separate parameters, as
  in the source.  A read `a[i]` is `a[i]?`: an index outside the list ends the
  run with `Outcome.fault`.
* `size_t` indices are `Nat`.  All index arithmetic of the kernels stays below
  `3 * length` (the galloping span is doubled only after `lower + span < length`
  was observed), so for any array that fits a 64-bit address space no `size_t`
  operation wraps.  Element values are `Nat`; the kernels only compare and copy
  them, so every statement below holds in particular for values below `2 ^ 32`.
* The output pointer `out` is the writable region it points to, a `List Nat`
  holding the initial contents; `*out++ = v` stores at the cursor and faults when
  the cursor is outside the region.  A null `out` is the region of capacity `0`.
  The value `out - initout` is the cursor.
* Loops are run on fuel (structural recursion, so that everything evaluates by
  `decide`); running out of fuel is `Outcome.timeout`.  Each kernel supplies a
  fuel computed from the lengths: one unit per loop test, which the results
  below never exhaust.
-/

namespace SIMDCompressionLib

/-- Result of running a kernel: a value, an out-of-bounds access, or fuel exhausted. -/
inductive Outcome (α : Type) where
  | ok (a : α)
  | fault
  | timeout
  deriving DecidableEq, Repr

/-- The doubling loop of `__frogadvanceUntil` (source line 43-44):
`while ((lower + spansize < length) and (array[lower + spansize] < min)) spansize *= 2;`
It returns the final `spansize`. -/
def gallopSpan (array : List Nat) (length min lower : Nat) : Nat → Nat → Outcome Nat
  | 0, _ => Outcome.timeout
  | fuel + 1, spansize =>
    if lower + spansize < length then
      match array[lower + spansize]? with
      | none => Outcome.fault
      | some v =>
        if v < min then gallopSpan array length min lower fuel (spansize * 2)
        else Outcome.ok spansize
    else Outcome.ok spansize

/-- The binary search loop of `__frogadvanceUntil` (source lines 56-65). -/
def binarySearchLoop (array : List Nat) (min : Nat) : Nat → Nat → Nat → Outcome Nat
  | 0, _, _ => Outcome.timeout
  | fuel + 1, lower, upper =>
    if lower + 1 != upper then
      let mid := (lower + upper) / 2
      match array[mid]? with
      | none => Outcome.fault
      | some v =>
        if v == min then Outcome.ok mid
        else if v < min then binarySearchLoop array min fuel mid upper
        else binarySearchLoop array min fuel lower mid
    else Outcome.ok upper

/-- Galloping search, `__frogadvanceUntil(array, pos, length, min)` (source lines 30-66). -/
def __frogadvanceUntil (array : List Nat) (pos length min : Nat) : Outcome Nat :=
  let lower := pos + 1
  if lower ≥ length then Outcome.ok lower
  else
    match array[lower]? with
    | none => Outcome.fault
    | some v =>
      if v ≥ min then Outcome.ok lower
      else
        match gallopSpan array length min lower length 1 with
        | Outcome.ok spansize =>
          let upper := if lower + spansize < length then lower + spansize else length - 1
          match array[upper]? with
          | none => Outcome.fault
          | some u =>
            if u < min then Outcome.ok length
            else binarySearchLoop array min length (lower + spansize / 2) upper
        | Outcome.fault => Outcome.fault
        | Outcome.timeout => Outcome.timeout

/-- The store `*out++ = v`: writes `v` at the cursor; `none` when the cursor is outside
the writable region (in particular for a null `out`, the region of capacity `0`). -/
def store (out : List Nat) (cursor v : Nat) : Option (List Nat) :=
  if cursor < out.length then some (out.set cursor v) else none

/-- Program points of the `while (true)` loop of `onesidedgallopingintersection`:
the loop head (source line 81) and the label `midpoint:` (line 86). -/
inductive GallopPc where
  | loopHead
  | midpoint
  deriving DecidableEq, Repr

/-- The `while (true)` loop of `onesidedgallopingintersection` (source lines 80-101),
with cursors `k1` (large), `k2` (small) and the output cursor `out - initout`.
A `break` returns `out - initout` (line 102) and the buffer. -/
def gallopLoop (smallset : List Nat) (smalllength : Nat) (largeset : List Nat)
    (largelength : Nat) :
    Nat → GallopPc → Nat → Nat → List Nat → Nat → Outcome (Nat × List Nat)
  | 0, _, _, _, _, _ => Outcome.timeout
  | fuel + 1, GallopPc.loopHead, k1, k2, out, cursor =>
    match largeset[k1]?, smallset[k2]? with
    | some l, some s =>
      if l < s then
        match __frogadvanceUntil largeset k1 largelength s with
        | Outcome.ok k1' =>
          if k1' == largelength then Outcome.ok (cursor, out)
          else gallopLoop smallset smalllength largeset largelength fuel
            GallopPc.midpoint k1' k2 out cursor
        | Outcome.fault => Outcome.fault
        | Outcome.timeout => Outcome.timeout
      else gallopLoop smallset smalllength largeset largelength fuel
        GallopPc.midpoint k1 k2 out cursor
    | _, _ => Outcome.fault
  | fuel + 1, GallopPc.midpoint, k1, k2, out, cursor =>
    match smallset[k2]?, largeset[k1]? with
    | some s, some l =>
      if s < l then
        if k2 + 1 == smalllength then Outcome.ok (cursor, out)
        else gallopLoop smallset smalllength largeset largelength fuel
          GallopPc.loopHead k1 (k2 + 1) out cursor
      else
        match store out cursor s with
        | none => Outcome.fault
        | some out' =>
          if k2 + 1 == smalllength then Outcome.ok (cursor + 1, out')
          else
            match smallset[k2 + 1]? with
            | none => Outcome.fault
            | some s' =>
              match __frogadvanceUntil largeset k1 largelength s' with
              | Outcome.ok k1' =>
                if k1' == largelength then Outcome.ok (cursor + 1, out')
                else gallopLoop smallset smalllength largeset largelength fuel
                  GallopPc.midpoint k1' (k2 + 1) out' (cursor + 1)
              | Outcome.fault => Outcome.fault
              | Outcome.timeout => Outcome.timeout
    | _, _ => Outcome.fault

/-- The body of `onesidedgallopingintersection` after the swap test (source lines 76-102). -/
def gallopBody (smallset : List Nat) (smalllength : Nat) (largeset : List Nat)
    (largelength : Nat) (out : List Nat) : Outcome (Nat × List Nat) :=
  if 0 == smalllength then Outcome.ok (0, out)
  else gallopLoop smallset smalllength largeset largelength (2 * smalllength + 2)
    GallopPc.loopHead 0 0 out 0

/-- Asymmetric intersection, `onesidedgallopingintersection(smallset, smalllength, largeset,
largelength, out)` (source lines 68-103).  The result is the returned count and the final
contents of the output region.  The recursive call of line 74 exchanges the arguments; in it
the swap test is false, so it runs the body. -/
def onesidedgallopingintersection (smallset : List Nat) (smalllength : Nat)
    (largeset : List Nat) (largelength : Nat) (out : List Nat) : Outcome (Nat × List Nat) :=
  if largelength < smalllength then gallopBody largeset largelength smallset smalllength out
  else gallopBody smallset smalllength largeset largelength out

/-- The macro `CONST_IF` of this header (source lines 8-14):
`#define CONST_IF(...) if constexpr(#__VA_ARGS__)`, respectively `if(#__VA_ARGS__)`.
The operator `#` turns the argument into a string literal, so `CONST_IF(emit_output)` tests
the literal `"emit_output"`, a non-null pointer: the condition holds whatever the value of
its argument. -/
def CONST_IF (_args : Bool) : Bool := true

/-- Program points of the merge loop shared by `scalar` and `match_scalar`: the first
`while` test, the label `SKIP_FIRST_COMPARE:`, the second `while` test, and the `if`. -/
inductive MergePc where
  | whileLess
  | skipFirstCompare
  | whileGreater
  | ifEqual
  deriving DecidableEq, Repr

/-- The `for (;;)` loop of `scalar` (source lines 119-139).  `i`, `j` are the offsets of the
pointers `A`, `B` from the array starts, `cursor` is `out - initout`, `n` the counter. -/
def scalarLoop (emit_output : Bool) (A : List Nat) (lenA : Nat) (B : List Nat) (lenB : Nat) :
    Nat → MergePc → Nat → Nat → List Nat → Nat → Nat → Outcome (Nat × List Nat)
  | 0, _, _, _, _, _, _ => Outcome.timeout
  | fuel + 1, MergePc.whileLess, i, j, out, cursor, n =>
    match A[i]?, B[j]? with
    | some a, some b =>
      if a < b then
        scalarLoop emit_output A lenA B lenB fuel MergePc.skipFirstCompare i j out cursor n
      else scalarLoop emit_output A lenA B lenB fuel MergePc.whileGreater i j out cursor n
    | _, _ => Outcome.fault
  | fuel + 1, MergePc.skipFirstCompare, i, j, out, cursor, n =>
    if i + 1 == lenA then Outcome.ok (cursor, out)
    else scalarLoop emit_output A lenA B lenB fuel MergePc.whileLess (i + 1) j out cursor n
  | fuel + 1, MergePc.whileGreater, i, j, out, cursor, n =>
    match A[i]?, B[j]? with
    | some a, some b =>
      if a > b then
        if j + 1 == lenB then Outcome.ok (cursor, out)
        else scalarLoop emit_output A lenA B lenB fuel MergePc.whileGreater i (j + 1)
          out cursor n
      else scalarLoop emit_output A lenA B lenB fuel MergePc.ifEqual i j out cursor n
    | _, _ => Outcome.fault
  | fuel + 1, MergePc.ifEqual, i, j, out, cursor, n =>
    match A[i]?, B[j]? with
    | some a, some b =>
      if a == b then
        if CONST_IF emit_output then
          match store out cursor a with
          | none => Outcome.fault
          | some out' =>
            if i + 1 == lenA || j + 1 == lenB then
              if CONST_IF emit_output then Outcome.ok (cursor + 1, out')
              else Outcome.ok (n, out')
            else scalarLoop emit_output A lenA B lenB fuel MergePc.whileLess (i + 1) (j + 1)
              out' (cursor + 1) n
        else
          if i + 1 == lenA || j + 1 == lenB then
            if CONST_IF emit_output then Outcome.ok (cursor, out)
            else Outcome.ok (n + 1, out)
          else scalarLoop emit_output A lenA B lenB fuel MergePc.whileLess (i + 1) (j + 1)
            out cursor (n + 1)
      else scalarLoop emit_output A lenA B lenB fuel MergePc.skipFirstCompare i j out cursor n
    | _, _ => Outcome.fault

/-- The merge intersection `scalar<T, emit_output>(A, lenA, B, lenB, out)` (source lines
108-145).  The result is the returned value and the final contents of the output region. -/
def scalar (emit_output : Bool) (A : List Nat) (lenA : Nat) (B : List Nat) (lenB : Nat)
    (out : List Nat) : Outcome (Nat × List Nat) :=
  if lenA == 0 || lenB == 0 then Outcome.ok (0, out)
  else scalarLoop emit_output A lenA B lenB (4 * (lenA + lenB) + 4)
    MergePc.whileLess 0 0 out 0 0

/-- The `while (1)` loop of `match_scalar` (source lines 158-178); `goto FINISH` returns
`out - initout`. -/
def matchLoop (A : List Nat) (lenA : Nat) (B : List Nat) (lenB : Nat) :
    Nat → MergePc → Nat → Nat → List Nat → Nat → Outcome (Nat × List Nat)
  | 0, _, _, _, _, _ => Outcome.timeout
  | fuel + 1, MergePc.whileLess, i, j, out, cursor =>
    match A[i]?, B[j]? with
    | some a, some b =>
      if a < b then matchLoop A lenA B lenB fuel MergePc.skipFirstCompare i j out cursor
      else matchLoop A lenA B lenB fuel MergePc.whileGreater i j out cursor
    | _, _ => Outcome.fault
  | fuel + 1, MergePc.skipFirstCompare, i, j, out, cursor =>
    if i + 1 == lenA then Outcome.ok (cursor, out)
    else matchLoop A lenA B lenB fuel MergePc.whileLess (i + 1) j out cursor
  | fuel + 1, MergePc.whileGreater, i, j, out, cursor =>
    match A[i]?, B[j]? with
    | some a, some b =>
      if a > b then
        if j + 1 == lenB then Outcome.ok (cursor, out)
        else matchLoop A lenA B lenB fuel MergePc.whileGreater i (j + 1) out cursor
      else matchLoop A lenA B lenB fuel MergePc.ifEqual i j out cursor
    | _, _ => Outcome.fault
  | fuel + 1, MergePc.ifEqual, i, j, out, cursor =>
    match A[i]?, B[j]? with
    | some a, some b =>
      if a == b then
        match store out cursor a with
        | none => Outcome.fault
        | some out' =>
          if i + 1 == lenA || j + 1 == lenB then Outcome.ok (cursor + 1, out')
          else matchLoop A lenA B lenB fuel MergePc.whileLess (i + 1) (j + 1) out' (cursor + 1)
      else matchLoop A lenA B lenB fuel MergePc.skipFirstCompare i j out cursor
    | _, _ => Outcome.fault

/-- The merge intersection `match_scalar(A, lenA, B, lenB, out)` (source lines 147-179). -/
def match_scalar (A : List Nat) (lenA : Nat) (B : List Nat) (lenB : Nat)
    (out : List Nat) : Outcome (Nat × List Nat) :=
  if lenA == 0 || lenB == 0 then Outcome.ok (0, out)
  else matchLoop A lenA B lenB (4 * (lenA + lenB) + 4) MergePc.whileLess 0 0 out 0

/-! ## Auxiliary notions used to state what the kernels compute -/

/-- The values of `S` from index `k` on that also occur in `L`, in the order of `S`. -/
def commonFrom (S L : List Nat) (k : Nat) : List Nat :=
  (S.drop k).filter (fun x => decide (x ∈ L))

/-- The region `out` after the values `vs` were stored from position `cursor` on. -/
def writeAt (out : List Nat) (cursor : Nat) (vs : List Nat) : List Nat :=
  out.take cursor ++ vs ++ out.drop (cursor + vs.length)

/-- Outcome of storing the values `vs` one after the other from position `cursor` on: all
stores succeed when the region has room for them, otherwise one of them leaves the region. -/
def storeAll (out : List Nat) (cursor : Nat) (vs : List Nat) : Outcome (Nat × List Nat) :=
  if cursor + vs.length ≤ out.length then
    Outcome.ok (cursor + vs.length, writeAt out cursor vs)
  else Outcome.fault

/-- Rank of a program point of the merge loop: the number of steps that can follow it
before a cursor advances. -/
def mergeRank : MergePc → Nat
  | MergePc.whileLess => 3
  | MergePc.whileGreater => 2
  | MergePc.ifEqual => 1
  | MergePc.skipFirstCompare => 0

/-! ## The registry `IntersectionFactory` (source lines 234-274)

The static member `intersection_schemes` is defined outside this header, so the registry
contents are a parameter of every operation.  Each operation returns its value together
with the contents of `intersection_schemes` after the call and the lines it wrote to
`cerr`. -/

/-- A kernel reference, the function pointer type `intersectionfunction` (source lines
185-188): `none` is `NULL`, `some a` is the kernel at address `a`. -/
abbrev intersectionfunction := Option Nat

/-- The null function pointer. -/
def NULL : intersectionfunction := none

/-- A `std::map<std::string, intersectionfunction>`: its entries in iteration order. -/
abbrev SchemeMap := List (String × intersectionfunction)

/-- The invariant of `std::map`: iteration visits the keys in strictly ascending order (so
every key occurs once). -/
def keysAscending (m : SchemeMap) : Prop := (m.map Prod.fst).Sorted (· < ·)

/-- The lookup `std::map::find`: the entry with the given key, `none` standing for `end()`. -/
def mapFind (m : SchemeMap) (name : String) : Option (String × intersectionfunction) :=
  m.find? (fun entry => entry.1 == name)

/-- Insertion of a new key at its place in the key order; an existing key is kept. -/
def mapInsert : SchemeMap → String → intersectionfunction → SchemeMap
  | [], name, v => [(name, v)]
  | entry :: rest, name, v =>
    if name < entry.1 then (name, v) :: entry :: rest
    else if entry.1 < name then entry :: mapInsert rest name v
    else entry :: rest

/-- The subscript `std::map::operator[]`: the value stored under the key; a key that is
absent is first inserted with the value-initialized (null) pointer.  The result is the
value and the map after the call. -/
def mapSubscript (m : SchemeMap) (name : String) : intersectionfunction × SchemeMap :=
  match mapFind m name with
  | some entry => (entry.2, m)
  | none => (NULL, mapInsert m name NULL)

/-- What a call of a registry operation leaves behind: the returned value, the contents of
`intersection_schemes` after the call, and the lines written to `cerr`. -/
structure Call (α : Type) where
  result : α
  schemes : SchemeMap
  cerr : List String

/-- The loop of `allNames` (source lines 240-243): `ans.push_back(i->first)` for every
entry in iteration order. -/
def allNamesLoop : SchemeMap → List String → List String
  | [], ans => ans
  | entry :: rest, ans => allNamesLoop rest (ans ++ [entry.1])

/-- The operation `IntersectionFactory::allNames()` (source lines 238-245). -/
def IntersectionFactory.allNames (intersection_schemes : SchemeMap) : Call (List String) :=
  { result := allNamesLoop intersection_schemes [], schemes := intersection_schemes,
    cerr := [] }

/-- The loop of `getName` (source lines 248-253): the key of the first entry, in iteration
order, whose value is `v`; `"UNKNOWN"` after the loop. -/
def getNameLoop : SchemeMap → intersectionfunction → String
  | [], _ => "UNKNOWN"
  | entry :: rest, v => if entry.2 == v then entry.1 else getNameLoop rest v

/-- The operation `IntersectionFactory::getName(v)` (source lines 247-254). -/
def IntersectionFactory.getName (intersection_schemes : SchemeMap)
    (v : intersectionfunction) : Call String :=
  { result := getNameLoop intersection_schemes v, schemes := intersection_schemes,
    cerr := [] }

/-- The operation `IntersectionFactory::valid(name)` (source lines 256-258):
`find(name) != end()`. -/
def IntersectionFactory.valid (intersection_schemes : SchemeMap) (name : String) :
    Call Bool :=
  { result := (mapFind intersection_schemes name).isSome, schemes := intersection_schemes,
    cerr := [] }

/-- The operation `IntersectionFactory::getFromName(name)` (source lines 260-273): when
`find(name) == end()` it writes the diagnostic and the registered names to `cerr` and
returns `NULL`; otherwise it returns `intersection_schemes[name]`. -/
def IntersectionFactory.getFromName (intersection_schemes : SchemeMap) (name : String) :
    Call intersectionfunction :=
  if (mapFind intersection_schemes name).isNone then
    { result := NULL, schemes := intersection_schemes,
      cerr := ["name " ++ name ++ " does not refer to an intersection procedure.",
        "possible choices:"] ++ intersection_schemes.map Prod.fst }
  else
    { result := (mapSubscript intersection_schemes name).1,
      schemes := (mapSubscript intersection_schemes name).2, cerr := [] }

/-! ## Reading sorted arrays -/

/-- A read inside the array succeeds. -/
theorem read_eq (a : List Nat) (k : Nat) (h : k < a.length) : a[k]? = some (a.getD k 0) := by
  rw [List.getElem?_eq_getElem h, List.getD_eq_getElem a 0 h]

/-- In a strictly increasing array, a smaller index holds a smaller value. -/
theorem sorted_read_lt (a : List Nat) (hs : a.Sorted (· < ·)) (i j : Nat) (hij : i < j)
    (hj : j < a.length) : a.getD i 0 < a.getD j 0 := by
  have hi : i < a.length := by omega
  rw [List.getD_eq_getElem a 0 hi, List.getD_eq_getElem a 0 hj]
  exact (List.pairwise_iff_getElem.mp hs) i j hi hj hij

/-- Monotone form of `sorted_read_lt`. -/
theorem sorted_read_le (a : List Nat) (hs : a.Sorted (· < ·)) (i j : Nat) (hij : i ≤ j)
    (hj : j < a.length) : a.getD i 0 ≤ a.getD j 0 := by
  rcases Nat.eq_or_lt_of_le hij with h | h
  · subst h; exact le_refl _
  · exact le_of_lt (sorted_read_lt a hs i j h hj)

/-! ## The galloping search -/

/-- The doubling loop returns a span whose half is still too small and which itself reaches
either the end of the array or a value that is large enough. -/
theorem gallopSpan_spec (a : List Nat) (min lower : Nat) :
    ∀ (fuel spansize : Nat), 1 ≤ spansize → 0 < fuel → a.length < lower + spansize + fuel →
      lower + spansize / 2 < a.length → a.getD (lower + spansize / 2) 0 < min →
      ∃ s, gallopSpan a a.length min lower fuel spansize = Outcome.ok s ∧ 1 ≤ s ∧
        lower + s / 2 < a.length ∧ a.getD (lower + s / 2) 0 < min ∧
        (lower + s < a.length → min ≤ a.getD (lower + s) 0) := by
  intro fuel
  induction fuel with
  | zero => intro _ _ h; omega
  | succ f ih =>
    intro spansize h1 _ hfuel hhalf hlt
    unfold gallopSpan
    by_cases hin : lower + spansize < a.length
    · rw [if_pos hin, read_eq a _ hin]
      by_cases hv : a.getD (lower + spansize) 0 < min
      · simp only [hv, if_true]
        have h2 : spansize * 2 / 2 = spansize := by omega
        exact ih (spansize * 2) (by omega) (by omega) (by omega) (by rw [h2]; exact hin)
          (by rw [h2]; exact hv)
      · simp only [hv, if_false]
        exact ⟨spansize, rfl, h1, hhalf, hlt, fun _ => by omega⟩
    · rw [if_neg hin]
      exact ⟨spansize, rfl, h1, hhalf, hlt, fun h => absurd h hin⟩

/-- The binary search returns the first index whose value reaches `min`. -/
theorem binarySearchLoop_spec (a : List Nat) (hs : a.Sorted (· < ·)) (min : Nat) :
    ∀ (fuel lower upper : Nat), lower < upper → upper < a.length → upper - lower ≤ fuel →
      a.getD lower 0 < min → min ≤ a.getD upper 0 →
      ∃ r, binarySearchLoop a min fuel lower upper = Outcome.ok r ∧ lower < r ∧ r ≤ upper ∧
        min ≤ a.getD r 0 ∧ ∀ i, i < r → a.getD i 0 < min := by
  intro fuel
  induction fuel with
  | zero => intro _ _ h _ h'; omega
  | succ f ih =>
    intro lower upper hlu hu hfuel hlo hup
    unfold binarySearchLoop
    by_cases hadj : lower + 1 = upper
    · simp only [hadj, bne_self_eq_false, Bool.false_eq_true, if_false]
      refine ⟨upper, rfl, hlu, le_refl _, hup, fun i hi => ?_⟩
      exact lt_of_le_of_lt (sorted_read_le a hs i lower (by omega) (by omega)) hlo
    · have hne : (lower + 1 != upper) = true := by simpa using hadj
      simp only [hne, if_true]
      have hmid : (lower + upper) / 2 < a.length := by omega
      rw [read_eq a _ hmid]
      by_cases heq : a.getD ((lower + upper) / 2) 0 = min
      · simp only [heq, beq_self_eq_true, if_true]
        refine ⟨(lower + upper) / 2, rfl, by omega, by omega, by omega, fun i hi => ?_⟩
        rw [← heq]
        exact sorted_read_lt a hs i _ hi hmid
      · have hbne : (a.getD ((lower + upper) / 2) 0 == min) = false := by simpa using heq
        simp only [hbne, Bool.false_eq_true, if_false]
        by_cases hv : a.getD ((lower + upper) / 2) 0 < min
        · simp only [hv, if_true]
          obtain ⟨r, hr, h1, h2, h3, h4⟩ :=
            ih ((lower + upper) / 2) upper (by omega) hu (by omega) hv hup
          exact ⟨r, hr, by omega, h2, h3, h4⟩
        · simp only [hv, if_false]
          obtain ⟨r, hr, h1, h2, h3, h4⟩ :=
            ih lower ((lower + upper) / 2) (by omega) hmid (by omega) hlo (by omega)
          exact ⟨r, hr, h1, by omega, h3, h4⟩

/-- Specification of the galloping search on a strictly increasing array: the result is the
first index after `pos` whose value reaches `min`, and the length when there is none. -/
theorem frog_spec (a : List Nat) (hs : a.Sorted (· < ·)) (pos min : Nat)
    (hpos : pos < a.length) :
    ∃ r, __frogadvanceUntil a pos a.length min = Outcome.ok r ∧ pos < r ∧ r ≤ a.length ∧
      (r < a.length → min ≤ a.getD r 0) ∧ ∀ i, pos < i → i < r → a.getD i 0 < min := by
  unfold __frogadvanceUntil
  by_cases hend : pos + 1 ≥ a.length
  · simp only [hend, if_true]
    exact ⟨pos + 1, rfl, by omega, by omega, fun h => by omega, fun i h1 h2 => by omega⟩
  · simp only [hend, if_false]
    have hlow : pos + 1 < a.length := by omega
    rw [read_eq a _ hlow]
    by_cases hfast : a.getD (pos + 1) 0 ≥ min
    · simp only [hfast, if_true]
      exact ⟨pos + 1, rfl, by omega, by omega, fun _ => hfast, fun i h1 h2 => by omega⟩
    · simp only [hfast, if_false]
      obtain ⟨s, hsp, hs1, hhalf, hhalflt, hreach⟩ :=
        gallopSpan_spec a min (pos + 1) a.length 1 (le_refl _) (by omega) (by omega)
          (by simpa using hlow) (by simpa using hfast)
      simp only [hsp]
      by_cases hin : pos + 1 + s < a.length
      · simp only [hin, if_true]
        rw [read_eq a _ hin]
        have hup := hreach hin
        have hnlt : ¬ a.getD (pos + 1 + s) 0 < min := by omega
        simp only [hnlt, if_false]
        obtain ⟨r, hr, h1, h2, h3, h4⟩ :=
          binarySearchLoop_spec a hs min a.length (pos + 1 + s / 2) (pos + 1 + s)
            (by omega) hin (by omega) hhalflt hup
        exact ⟨r, hr, by omega, by omega, fun _ => h3, fun i _ hi => h4 i hi⟩
      · simp only [hin, if_false]
        have hlast : a.length - 1 < a.length := by omega
        rw [read_eq a _ hlast]
        by_cases hu : a.getD (a.length - 1) 0 < min
        · simp only [hu, if_true]
          refine ⟨a.length, rfl, by omega, le_refl _, fun h => by omega, fun i _ hi => ?_⟩
          exact lt_of_le_of_lt (sorted_read_le a hs i _ (by omega) hlast) hu
        · simp only [hu, if_false]
          have hne : pos + 1 + s / 2 ≠ a.length - 1 := by
            intro h; rw [h] at hhalflt; exact hu hhalflt
          obtain ⟨r, hr, h1, h2, h3, h4⟩ :=
            binarySearchLoop_spec a hs min a.length (pos + 1 + s / 2) (a.length - 1)
              (by omega) hlast (by omega) hhalflt (by omega)
          exact ⟨r, hr, by omega, by omega, fun _ => h3, fun i _ hi => h4 i hi⟩

/-! ## Common values of two sorted arrays -/

theorem drop_read (S : List Nat) (k : Nat) (h : k < S.length) :
    S.drop k = S.getD k 0 :: S.drop (k + 1) := by
  rw [List.getD_eq_getElem S 0 h]
  exact List.drop_eq_getElem_cons h

theorem mem_read (L : List Nat) (x : Nat) : x ∈ L ↔ ∃ i, i < L.length ∧ L.getD i 0 = x := by
  rw [List.mem_iff_getElem]
  constructor
  · rintro ⟨i, hi, rfl⟩
    exact ⟨i, hi, List.getD_eq_getElem L 0 hi⟩
  · rintro ⟨i, hi, rfl⟩
    exact ⟨i, hi, (List.getD_eq_getElem L 0 hi).symm⟩

theorem mem_drop_read (S : List Nat) (k x : Nat) (h : x ∈ S.drop k) :
    ∃ i, k ≤ i ∧ i < S.length ∧ S.getD i 0 = x := by
  rw [List.mem_drop_iff_getElem] at h
  obtain ⟨i, hi, rfl⟩ := h
  exact ⟨k + i, by omega, by omega, List.getD_eq_getElem S 0 (by omega)⟩

theorem commonFrom_mem (S L : List Nat) (k : Nat) (h : k < S.length)
    (hm : S.getD k 0 ∈ L) : commonFrom S L k = S.getD k 0 :: commonFrom S L (k + 1) := by
  unfold commonFrom
  rw [drop_read S k h, List.filter_cons_of_pos (by simpa using hm)]

theorem commonFrom_not_mem (S L : List Nat) (k : Nat) (h : k < S.length)
    (hm : S.getD k 0 ∉ L) : commonFrom S L k = commonFrom S L (k + 1) := by
  unfold commonFrom
  rw [drop_read S k h, List.filter_cons_of_neg (by simpa using hm)]

theorem commonFrom_end (S L : List Nat) (k : Nat) (h : S.length ≤ k) :
    commonFrom S L k = [] := by
  unfold commonFrom
  rw [List.drop_eq_nil_of_le h]
  rfl

/-- When every value of `L` is below `S[k]`, nothing from `k` on is common. -/
theorem commonFrom_all_lt (S L : List Nat) (hS : S.Sorted (· < ·)) (k : Nat)
    (h : ∀ i, i < L.length → L.getD i 0 < S.getD k 0) : commonFrom S L k = [] := by
  unfold commonFrom
  rw [List.filter_eq_nil_iff]
  intro x hx
  obtain ⟨i, hki, hi, rfl⟩ := mem_drop_read S k x hx
  simp only [decide_eq_true_eq]
  intro hmem
  obtain ⟨j, hj, hjx⟩ := (mem_read L _).mp hmem
  have h1 := h j hj
  have h2 := sorted_read_le S hS k i hki hi
  omega

/-- A value strictly between the values before `k1` and the value at `k1` is not in `L`. -/
theorem not_mem_of_gap (L : List Nat) (hL : L.Sorted (· < ·)) (k1 s : Nat)
    (hbefore : ∀ i, i < k1 → L.getD i 0 < s) (hat : s < L.getD k1 0) :
    s ∉ L := by
  intro hmem
  obtain ⟨j, hj, hjs⟩ := (mem_read L s).mp hmem
  rcases Nat.lt_or_ge j k1 with h | h
  · have := hbefore j h; omega
  · have := sorted_read_le L hL k1 j h hj; omega

theorem mem_of_read (L : List Nat) (k1 : Nat) (hk : k1 < L.length) : L.getD k1 0 ∈ L :=
  (mem_read L _).mpr ⟨k1, hk, rfl⟩

/-- The filter of a strictly increasing `S` by membership in `L` is the sorted intersection. -/
theorem commonFrom_zero (S L : List Nat) (hS : S.Sorted (· < ·)) :
    commonFrom S L 0 = (S.toFinset ∩ L.toFinset).sort (· ≤ ·) := by
  have hsorted : (commonFrom S L 0).Sorted (· < ·) := by
    unfold commonFrom
    exact List.Sorted.filter _ hS
  have hfin : (commonFrom S L 0).toFinset = S.toFinset ∩ L.toFinset := by
    ext x
    simp [commonFrom]
  rw [← hfin]
  exact ((List.toFinset_sort (· ≤ ·) hsorted.nodup).mpr hsorted.le_of_lt).symm

/-! ## Stores into the output region -/

theorem writeAt_nil (out : List Nat) (cursor : Nat) : writeAt out cursor [] = out := by
  simp [writeAt]

theorem store_ok (out : List Nat) (cursor v : Nat) (h : cursor < out.length) :
    store out cursor v = some (out.set cursor v) := by
  simp [store, h]

theorem store_full (out : List Nat) (cursor v : Nat) (h : ¬ cursor < out.length) :
    store out cursor v = none := by
  simp [store, h]

theorem writeAt_set (out : List Nat) (cursor v : Nat) (vs : List Nat)
    (h : cursor < out.length) :
    writeAt (out.set cursor v) (cursor + 1) vs = writeAt out cursor (v :: vs) := by
  unfold writeAt
  rw [List.drop_set_of_lt v out (by omega : cursor < cursor + 1 + vs.length)]
  have h1 : (out.set cursor v).take (cursor + 1) = out.take cursor ++ [v] := by
    rw [List.set_eq_take_append_cons_drop, if_pos h]
    have h3 : out.take cursor ++ v :: out.drop (cursor + 1)
        = (out.take cursor ++ [v]) ++ out.drop (cursor + 1) := by simp
    rw [h3]
    exact List.take_left' (by simp; omega)
  rw [h1]
  have h2 : cursor + (v :: vs).length = cursor + 1 + vs.length := by
    simp only [List.length_cons]; omega
  rw [h2]
  simp

theorem writeAt_zero (out vs : List Nat) : writeAt out 0 vs = vs ++ out.drop vs.length := by
  simp [writeAt]

theorem storeAll_nil (out : List Nat) (cursor : Nat) (h : cursor ≤ out.length) :
    storeAll out cursor [] = Outcome.ok (cursor, out) := by
  simp [storeAll, h, writeAt_nil]

theorem storeAll_cons (out : List Nat) (cursor v : Nat) (vs : List Nat)
    (h : cursor < out.length) :
    storeAll (out.set cursor v) (cursor + 1) vs = storeAll out cursor (v :: vs) := by
  unfold storeAll
  rw [writeAt_set out cursor v vs h, List.length_set, List.length_cons]
  have h1 : cursor + 1 + vs.length = cursor + (vs.length + 1) := by omega
  rw [h1]

theorem storeAll_full (out : List Nat) (cursor v : Nat) (vs : List Nat)
    (h : ¬ cursor < out.length) : storeAll out cursor (v :: vs) = Outcome.fault := by
  unfold storeAll
  rw [List.length_cons, if_neg (by omega)]

/-! ## The asymmetric intersection -/

/-- Loop invariant of `onesidedgallopingintersection`, for strictly increasing inputs: with
every large value before `k1` below `small[k2]`, the loop stores the common values from `k2`
on, one after the other. -/
theorem gallopLoop_spec (S L : List Nat) (hS : S.Sorted (· < ·)) (hL : L.Sorted (· < ·)) :
    ∀ (fuel : Nat) (pc : GallopPc) (k1 k2 : Nat) (out : List Nat) (cursor : Nat),
      k1 < L.length → k2 < S.length →
      (∀ i, i < k1 → L.getD i 0 < S.getD k2 0) →
      (pc = GallopPc.midpoint → S.getD k2 0 ≤ L.getD k1 0) →
      cursor ≤ out.length →
      2 * (S.length - k2) + (if pc = GallopPc.loopHead then 1 else 0) ≤ fuel →
      gallopLoop S S.length L L.length fuel pc k1 k2 out cursor
        = storeAll out cursor (commonFrom S L k2) := by
  intro fuel
  induction fuel with
  | zero => intro pc k1 k2 out cursor _ h2 _ _ _ hf; omega
  | succ f ih =>
    intro pc k1 k2 out cursor hk1 hk2 hbefore hmid hcur hfuel
    cases pc with
    | loopHead =>
      simp only [if_true] at hfuel
      unfold gallopLoop
      rw [read_eq L k1 hk1, read_eq S k2 hk2]
      simp only []
      by_cases hlt : L.getD k1 0 < S.getD k2 0
      · simp only [hlt, if_true]
        obtain ⟨r, hr, hr1, hr2, hr3, hr4⟩ := frog_spec L hL k1 (S.getD k2 0) hk1
        simp only [hr]
        have hbefore' : ∀ i, i < r → L.getD i 0 < S.getD k2 0 := by
          intro i hi
          rcases Nat.lt_trichotomy i k1 with h | h | h
          · exact hbefore i h
          · rw [h]; exact hlt
          · exact hr4 i h hi
        by_cases hend : r = L.length
        · have hnil := commonFrom_all_lt S L hS k2 (fun i hi => hbefore' i (by omega))
          rw [hnil, storeAll_nil out cursor hcur]
          simp [hend]
        · have hne : (r == L.length) = false := by simpa using hend
          simp only [hne, Bool.false_eq_true, if_false]
          exact ih GallopPc.midpoint r k2 out cursor (by omega) hk2 hbefore'
            (fun _ => hr3 (by omega)) hcur (by simp; omega)
      · simp only [hlt, if_false]
        exact ih GallopPc.midpoint k1 k2 out cursor hk1 hk2 hbefore
          (fun _ => by omega) hcur (by simp; omega)
    | midpoint =>
      simp only [reduceCtorEq, if_false] at hfuel
      have hle := hmid rfl
      unfold gallopLoop
      rw [read_eq L k1 hk1, read_eq S k2 hk2]
      simp only []
      by_cases hlt : S.getD k2 0 < L.getD k1 0
      · simp only [hlt, if_true]
        have hnot := not_mem_of_gap L hL k1 (S.getD k2 0) hbefore hlt
        have hstep := commonFrom_not_mem S L k2 hk2 hnot
        rw [hstep]
        by_cases hend : k2 + 1 = S.length
        · have hnil := commonFrom_end S L (k2 + 1) (by omega)
          rw [hnil, storeAll_nil out cursor hcur]
          simp [hend]
        · have hne : (k2 + 1 == S.length) = false := by simpa using hend
          simp only [hne, Bool.false_eq_true, if_false]
          refine ih GallopPc.loopHead k1 (k2 + 1) out cursor hk1 (by omega) ?_
            (fun h => by cases h) hcur (by simp; omega)
          intro i hi
          have h1 := hbefore i hi
          have h2 := sorted_read_lt S hS k2 (k2 + 1) (by omega) (by omega)
          omega
      · simp only [hlt, if_false]
        have heq : S.getD k2 0 = L.getD k1 0 := by omega
        have hmem : S.getD k2 0 ∈ L := by rw [heq]; exact mem_of_read L k1 hk1
        have hstep := commonFrom_mem S L k2 hk2 hmem
        rw [hstep]
        by_cases hroom : cursor < out.length
        · rw [store_ok out cursor _ hroom]
          simp only []
          rw [← storeAll_cons out cursor _ _ hroom]
          have hcur' : cursor + 1 ≤ (out.set cursor (S.getD k2 0)).length := by
            rw [List.length_set]; omega
          by_cases hend : k2 + 1 = S.length
          · have hnil := commonFrom_end S L (k2 + 1) (by omega)
            rw [hnil, storeAll_nil _ _ hcur']
            simp [hend]
          · have hne : (k2 + 1 == S.length) = false := by simpa using hend
            simp only [hne, Bool.false_eq_true, if_false]
            have hk2' : k2 + 1 < S.length := by omega
            rw [read_eq S (k2 + 1) hk2']
            simp only []
            obtain ⟨r, hr, hr1, hr2, hr3, hr4⟩ := frog_spec L hL k1 (S.getD (k2 + 1) 0) hk1
            simp only [hr]
            have hnext := sorted_read_lt S hS k2 (k2 + 1) (by omega) hk2'
            have hbefore' : ∀ i, i < r → L.getD i 0 < S.getD (k2 + 1) 0 := by
              intro i hi
              rcases Nat.lt_trichotomy i k1 with h | h | h
              · have := hbefore i h; omega
              · rw [h]; omega
              · exact hr4 i h hi
            by_cases hend1 : r = L.length
            · have hnil := commonFrom_all_lt S L hS (k2 + 1)
                (fun i hi => hbefore' i (by omega))
              rw [hnil, storeAll_nil _ _ hcur']
              simp [hend1]
            · have hne1 : (r == L.length) = false := by simpa using hend1
              simp only [hne1, Bool.false_eq_true, if_false]
              exact ih GallopPc.midpoint r (k2 + 1) (out.set cursor (S.getD k2 0)) (cursor + 1)
                (by omega) hk2' hbefore' (fun _ => hr3 (by omega)) hcur' (by simp; omega)
        · rw [store_full out cursor _ hroom, storeAll_full out cursor _ _ hroom]

/-- The asymmetric kernel body on strictly increasing inputs, the first not the longer. -/
theorem gallopBody_spec (S L out : List Nat) (hS : S.Sorted (· < ·)) (hL : L.Sorted (· < ·))
    (hlen : S.length ≤ L.length) :
    gallopBody S S.length L L.length out = storeAll out 0 (commonFrom S L 0) := by
  unfold gallopBody
  by_cases h0 : S.length = 0
  · have hnil := commonFrom_end S L 0 (by omega)
    rw [hnil, storeAll_nil out 0 (Nat.zero_le _)]
    simp [h0]
  · have hne : (0 == S.length) = false := by simpa using fun h => h0 h.symm
    simp only [hne, Bool.false_eq_true, if_false]
    exact gallopLoop_spec S L hS hL (2 * S.length + 2) GallopPc.loopHead 0 0 out 0
      (by omega) (by omega) (fun i hi => by omega) (fun h => by cases h)
      (Nat.zero_le _) (by simp)

/-! ## The merge intersection -/

/-- Loop invariant of `scalar`, for strictly increasing inputs: with every value of `B`
before `j` below `A[i]`, the loop stores the common values from `i` on, one after the
other. -/
theorem scalarLoop_spec (e : Bool) (A B : List Nat) (hA : A.Sorted (· < ·))
    (hB : B.Sorted (· < ·)) :
    ∀ (fuel : Nat) (pc : MergePc) (i j : Nat) (out : List Nat) (cursor n : Nat),
      i < A.length → j < B.length →
      (∀ k, k < j → B.getD k 0 < A.getD i 0) →
      (pc = MergePc.skipFirstCompare → A.getD i 0 < B.getD j 0) →
      (pc = MergePc.ifEqual → A.getD i 0 ≤ B.getD j 0) →
      cursor ≤ out.length →
      4 * ((A.length - i) + (B.length - j)) + mergeRank pc ≤ fuel →
      scalarLoop e A A.length B B.length fuel pc i j out cursor n
        = storeAll out cursor (commonFrom A B i) := by
  intro fuel
  induction fuel with
  | zero => intro pc i j out cursor n hi hj _ _ _ _ hf; omega
  | succ f ih =>
    intro pc i j out cursor n hi hj hbefore hskip hifeq hcur hfuel
    cases pc with
    | whileLess =>
      simp only [mergeRank] at hfuel
      unfold scalarLoop
      rw [read_eq A i hi, read_eq B j hj]
      simp only []
      by_cases hlt : A.getD i 0 < B.getD j 0
      · simp only [hlt, if_true]
        exact ih MergePc.skipFirstCompare i j out cursor n hi hj hbefore (fun _ => hlt)
          (fun h => by cases h) hcur (by simp only [mergeRank]; omega)
      · simp only [hlt, if_false]
        exact ih MergePc.whileGreater i j out cursor n hi hj hbefore (fun h => by cases h)
          (fun h => by cases h) hcur (by simp only [mergeRank]; omega)
    | skipFirstCompare =>
      simp only [mergeRank] at hfuel
      have hlt := hskip rfl
      have hnot := not_mem_of_gap B hB j (A.getD i 0) hbefore hlt
      have hstep := commonFrom_not_mem A B i hi hnot
      unfold scalarLoop
      rw [hstep]
      by_cases hend : i + 1 = A.length
      · have hnil := commonFrom_end A B (i + 1) (by omega)
        rw [hnil, storeAll_nil out cursor hcur]
        simp [hend]
      · have hne : (i + 1 == A.length) = false := by simpa using hend
        simp only [hne, Bool.false_eq_true, if_false]
        refine ih MergePc.whileLess (i + 1) j out cursor n (by omega) hj ?_
          (fun h => by cases h) (fun h => by cases h) hcur (by simp only [mergeRank]; omega)
        intro k hk
        have h1 := hbefore k hk
        have h2 := sorted_read_lt A hA i (i + 1) (by omega) (by omega)
        omega
    | whileGreater =>
      simp only [mergeRank] at hfuel
      unfold scalarLoop
      rw [read_eq A i hi, read_eq B j hj]
      simp only []
      by_cases hgt : A.getD i 0 > B.getD j 0
      · simp only [hgt, if_true]
        have hbefore' : ∀ k, k < j + 1 → B.getD k 0 < A.getD i 0 := by
          intro k hk
          rcases Nat.lt_or_ge k j with h | h
          · exact hbefore k h
          · have : k = j := by omega
            rw [this]; exact hgt
        by_cases hend : j + 1 = B.length
        · have hnil := commonFrom_all_lt A B hA i (fun k hk => hbefore' k (by omega))
          rw [hnil, storeAll_nil out cursor hcur]
          simp [hend]
        · have hne : (j + 1 == B.length) = false := by simpa using hend
          simp only [hne, Bool.false_eq_true, if_false]
          exact ih MergePc.whileGreater i (j + 1) out cursor n hi (by omega) hbefore'
            (fun h => by cases h) (fun h => by cases h) hcur
            (by simp only [mergeRank]; omega)
      · simp only [hgt, if_false]
        exact ih MergePc.ifEqual i j out cursor n hi hj hbefore (fun h => by cases h)
          (fun _ => by omega) hcur (by simp only [mergeRank]; omega)
    | ifEqual =>
      simp only [mergeRank] at hfuel
      have hle := hifeq rfl
      unfold scalarLoop
      rw [read_eq A i hi, read_eq B j hj]
      simp only []
      by_cases heq : A.getD i 0 = B.getD j 0
      · have hbeq : (A.getD i 0 == B.getD j 0) = true := by simpa using heq
        simp only [hbeq, if_true, CONST_IF]
        have hmem : A.getD i 0 ∈ B := by rw [heq]; exact mem_of_read B j hj
        have hstep := commonFrom_mem A B i hi hmem
        rw [hstep]
        by_cases hroom : cursor < out.length
        · rw [store_ok out cursor _ hroom]
          simp only []
          rw [← storeAll_cons out cursor _ _ hroom]
          have hcur' : cursor + 1 ≤ (out.set cursor (A.getD i 0)).length := by
            rw [List.length_set]; omega
          by_cases hendA : i + 1 = A.length
          · have hnil := commonFrom_end A B (i + 1) (by omega)
            rw [hnil, storeAll_nil _ _ hcur']
            simp [hendA]
          · have hi' : i + 1 < A.length := by omega
            have hnext := sorted_read_lt A hA i (i + 1) (by omega) hi'
            have hbefore' : ∀ k, k < j + 1 → B.getD k 0 < A.getD (i + 1) 0 := by
              intro k hk
              rcases Nat.lt_or_ge k j with h | h
              · have := hbefore k h; omega
              · have : k = j := by omega
                rw [this]; omega
            by_cases hendB : j + 1 = B.length
            · have hnil := commonFrom_all_lt A B hA (i + 1)
                (fun k hk => hbefore' k (by omega))
              rw [hnil, storeAll_nil _ _ hcur']
              simp [hendB]
            · have hne : (i + 1 == A.length || j + 1 == B.length) = false := by
                simp [hendA, hendB]
              simp only [hne, Bool.false_eq_true, if_false]
              exact ih MergePc.whileLess (i + 1) (j + 1) (out.set cursor (A.getD i 0))
                (cursor + 1) n hi' (by omega) hbefore' (fun h => by cases h)
                (fun h => by cases h) hcur' (by simp only [mergeRank]; omega)
        · rw [store_full out cursor _ hroom, storeAll_full out cursor _ _ hroom]
      · have hbne : (A.getD i 0 == B.getD j 0) = false := by simpa using heq
        simp only [hbne, Bool.false_eq_true, if_false]
        exact ih MergePc.skipFirstCompare i j out cursor n hi hj hbefore (fun _ => by omega)
          (fun h => by cases h) hcur (by simp only [mergeRank]; omega)

/-- The merge kernel on strictly increasing inputs, for either value of `emit_output`. -/
theorem scalar_spec (e : Bool) (A B out : List Nat) (hA : A.Sorted (· < ·))
    (hB : B.Sorted (· < ·)) :
    scalar e A A.length B B.length out = storeAll out 0 (commonFrom A B 0) := by
  unfold scalar
  by_cases h0 : A.length = 0
  · have hnil := commonFrom_end A B 0 (by omega)
    rw [hnil, storeAll_nil out 0 (Nat.zero_le _)]
    simp [h0]
  · by_cases h1 : B.length = 0
    · have hnil : commonFrom A B 0 = [] := by
        have : B = [] := List.length_eq_zero.mp h1
        subst this
        simp [commonFrom]
      rw [hnil, storeAll_nil out 0 (Nat.zero_le _)]
      simp [h1]
    · have hne : (A.length == 0 || B.length == 0) = false := by simp [h0, h1]
      simp only [hne, Bool.false_eq_true, if_false]
      exact scalarLoop_spec e A B hA hB (4 * (A.length + B.length) + 4) MergePc.whileLess
        0 0 out 0 0 (by omega) (by omega) (fun k hk => by omega) (fun h => by cases h)
        (fun h => by cases h) (Nat.zero_le _) (by simp only [mergeRank]; omega)

/-! ## Results of the kernels on strictly increasing inputs -/

theorem common_card_le (A B : List Nat) :
    (A.toFinset ∩ B.toFinset).card ≤ min A.length B.length := by
  have h1 : (A.toFinset ∩ B.toFinset).card ≤ A.length :=
    le_trans (Finset.card_le_card Finset.inter_subset_left) (List.toFinset_card_le A)
  have h2 : (A.toFinset ∩ B.toFinset).card ≤ B.length :=
    le_trans (Finset.card_le_card Finset.inter_subset_right) (List.toFinset_card_le B)
  exact le_min h1 h2

/-- Storing all common values from the start of the region, in terms of the finite sets. -/
theorem storeAll_common (S L out : List Nat) (hS : S.Sorted (· < ·)) :
    storeAll out 0 (commonFrom S L 0)
      = if (S.toFinset ∩ L.toFinset).card ≤ out.length then
          Outcome.ok ((S.toFinset ∩ L.toFinset).card,
            (S.toFinset ∩ L.toFinset).sort (· ≤ ·) ++ out.drop (S.toFinset ∩ L.toFinset).card)
        else Outcome.fault := by
  have hc := commonFrom_zero S L hS
  have hl : (commonFrom S L 0).length = (S.toFinset ∩ L.toFinset).card := by
    rw [hc, Finset.length_sort]
  unfold storeAll
  rw [writeAt_zero, hl, hc, Nat.zero_add]

/-- On strictly increasing inputs `scalar` stores the common values, ascending, at the start
of the output region and returns their number; the rest of the region is kept.  When the
region is too small for them, a store leaves it. -/
theorem scalar_sorted (e : Bool) (A B out : List Nat) (hA : A.Sorted (· < ·))
    (hB : B.Sorted (· < ·)) :
    scalar e A A.length B B.length out
      = if (A.toFinset ∩ B.toFinset).card ≤ out.length then
          Outcome.ok ((A.toFinset ∩ B.toFinset).card,
            (A.toFinset ∩ B.toFinset).sort (· ≤ ·) ++ out.drop (A.toFinset ∩ B.toFinset).card)
        else Outcome.fault := by
  rw [scalar_spec e A B out hA hB, storeAll_common A B out hA]

/-- On strictly increasing inputs `onesidedgallopingintersection` stores the common values,
ascending, at the start of the output region and returns their number; the rest of the
region is kept.  When the region is too small for them, a store leaves it. -/
theorem gallop_sorted (A B out : List Nat) (hA : A.Sorted (· < ·))
    (hB : B.Sorted (· < ·)) :
    onesidedgallopingintersection A A.length B B.length out
      = if (A.toFinset ∩ B.toFinset).card ≤ out.length then
          Outcome.ok ((A.toFinset ∩ B.toFinset).card,
            (A.toFinset ∩ B.toFinset).sort (· ≤ ·) ++ out.drop (A.toFinset ∩ B.toFinset).card)
        else Outcome.fault := by
  unfold onesidedgallopingintersection
  by_cases hswap : B.length < A.length
  · rw [if_pos hswap, gallopBody_spec B A out hB hA (by omega), storeAll_common B A out hB,
      Finset.inter_comm]
  · rw [if_neg hswap, gallopBody_spec A B out hA hB (by omega), storeAll_common A B out hA]

/-- The first `vs.length` positions of `vs ++ out.drop vs.length` hold `vs`. -/
theorem take_written (vs out : List Nat) (c : Nat) (h : vs.length = c) :
    (vs ++ out.drop c).take c = vs :=
  List.take_left' h

/-- Storing `vs` at the start of a region that can hold it keeps the capacity and every
position from `vs.length` on. -/
theorem frame_written (vs out : List Nat) (c : Nat) (h : vs.length = c) (hc : c ≤ out.length) :
    (vs ++ out.drop c).length = out.length ∧
      ∀ k, c ≤ k → (vs ++ out.drop c)[k]? = out[k]? := by
  constructor
  · rw [List.length_append, List.length_drop, h]; omega
  · intro k hk
    rw [List.getElem?_append_right (by omega), List.getElem?_drop, h]
    congr 1
    omega

/-- `scalar_sorted` for a region with room for the common values. -/
theorem scalar_sorted_ok (e : Bool) (A B out : List Nat) (hA : A.Sorted (· < ·))
    (hB : B.Sorted (· < ·)) (hcap : (A.toFinset ∩ B.toFinset).card ≤ out.length) :
    scalar e A A.length B B.length out
      = Outcome.ok ((A.toFinset ∩ B.toFinset).card,
          (A.toFinset ∩ B.toFinset).sort (· ≤ ·) ++ out.drop (A.toFinset ∩ B.toFinset).card) :=
  (scalar_sorted e A B out hA hB).trans (if_pos hcap)

/-- `gallop_sorted` for a region with room for the common values. -/
theorem gallop_sorted_ok (A B out : List Nat) (hA : A.Sorted (· < ·))
    (hB : B.Sorted (· < ·)) (hcap : (A.toFinset ∩ B.toFinset).card ≤ out.length) :
    onesidedgallopingintersection A A.length B B.length out
      = Outcome.ok ((A.toFinset ∩ B.toFinset).card,
          (A.toFinset ∩ B.toFinset).sort (· ≤ ·) ++ out.drop (A.toFinset ∩ B.toFinset).card) :=
  (gallop_sorted A B out hA hB).trans (if_pos hcap)

/-- A kernel outcome of the form computed above that is a result confines its stores to the
positions below the count. -/
theorem frame_of_outcome (A B out : List Nat) (c : Nat) (out' : List Nat)
    (h : (if (A.toFinset ∩ B.toFinset).card ≤ out.length then
          Outcome.ok ((A.toFinset ∩ B.toFinset).card,
            (A.toFinset ∩ B.toFinset).sort (· ≤ ·) ++ out.drop (A.toFinset ∩ B.toFinset).card)
        else Outcome.fault) = Outcome.ok (c, out')) :
    c ≤ min A.length B.length ∧ out'.length = out.length ∧
      ∀ k, c ≤ k → out'[k]? = out[k]? := by
  by_cases hcap : (A.toFinset ∩ B.toFinset).card ≤ out.length
  · rw [if_pos hcap] at h
    injection h with h
    injection h with h1 h2
    subst h1
    subst h2
    have hf := frame_written ((A.toFinset ∩ B.toFinset).sort (· ≤ ·)) out
      (A.toFinset ∩ B.toFinset).card (Finset.length_sort _) hcap
    exact ⟨common_card_le A B, hf.1, hf.2⟩
  · rw [if_neg hcap] at h
    cases h

/-! ## The claims -/

/-- C1: for strictly increasing `A` and `B` (either may be empty) and an output region of
capacity at least `min lenA lenB`, `scalar` in materializing mode returns the number of
values that occur in both, and afterwards the first that many positions of the region hold
exactly those values in strictly ascending order. -/
theorem scalar_materializing_intersection (A B out : List Nat) (hA : A.Sorted (· < ·))
    (hB : B.Sorted (· < ·)) (hcap : min A.length B.length ≤ out.length) :
    ∃ out', scalar true A A.length B B.length out
        = Outcome.ok ((A.toFinset ∩ B.toFinset).card, out') ∧
      out'.take (A.toFinset ∩ B.toFinset).card = (A.toFinset ∩ B.toFinset).sort (· ≤ ·) ∧
      (out'.take (A.toFinset ∩ B.toFinset).card).Sorted (· < ·) := by
  have hc := common_card_le A B
  refine ⟨_, scalar_sorted_ok true A B out hA hB (by omega), ?_, ?_⟩
  · exact take_written _ out _ (Finset.length_sort _)
  · rw [take_written _ out _ (Finset.length_sort _)]
    exact Finset.sort_sorted_lt _

/-- Witness of C1 on scenario 1 of the specification. -/
theorem scalar_materializing_intersection_witness :
    ∃ out', scalar true [1, 3, 5, 7, 9] 5 [3, 4, 5, 6, 9] 5 [0, 0, 0, 0, 0]
        = Outcome.ok ((([1, 3, 5, 7, 9] : List Nat).toFinset ∩
            ([3, 4, 5, 6, 9] : List Nat).toFinset).card, out') ∧
      out'.take (([1, 3, 5, 7, 9] : List Nat).toFinset ∩
            ([3, 4, 5, 6, 9] : List Nat).toFinset).card
        = (([1, 3, 5, 7, 9] : List Nat).toFinset ∩
            ([3, 4, 5, 6, 9] : List Nat).toFinset).sort (· ≤ ·) ∧
      (out'.take (([1, 3, 5, 7, 9] : List Nat).toFinset ∩
            ([3, 4, 5, 6, 9] : List Nat).toFinset).card).Sorted (· < ·) :=
  scalar_materializing_intersection [1, 3, 5, 7, 9] [3, 4, 5, 6, 9] [0, 0, 0, 0, 0]
    (by decide) (by decide) (by decide)

/-- C2: for strictly increasing `S` and `L`, in either length order and either possibly
empty, and an output region of capacity at least `min lenS lenL`,
`onesidedgallopingintersection` returns the number of values that occur in both, and
afterwards the first that many positions of the region hold exactly those values in
strictly ascending order. -/
theorem gallop_intersection (S L out : List Nat) (hS : S.Sorted (· < ·))
    (hL : L.Sorted (· < ·)) (hcap : min S.length L.length ≤ out.length) :
    ∃ out', onesidedgallopingintersection S S.length L L.length out
        = Outcome.ok ((S.toFinset ∩ L.toFinset).card, out') ∧
      out'.take (S.toFinset ∩ L.toFinset).card = (S.toFinset ∩ L.toFinset).sort (· ≤ ·) ∧
      (out'.take (S.toFinset ∩ L.toFinset).card).Sorted (· < ·) := by
  have hc := common_card_le S L
  refine ⟨_, gallop_sorted_ok S L out hS hL (by omega), ?_, ?_⟩
  · exact take_written _ out _ (Finset.length_sort _)
  · rw [take_written _ out _ (Finset.length_sort _)]
    exact Finset.sort_sorted_lt _

/-- Witness of C2, with the first argument the longer one. -/
theorem gallop_intersection_witness :
    ∃ out', onesidedgallopingintersection [1, 3, 5, 7, 9] 5 [3, 9] 2 [0, 0]
        = Outcome.ok ((([1, 3, 5, 7, 9] : List Nat).toFinset ∩
            ([3, 9] : List Nat).toFinset).card, out') ∧
      out'.take (([1, 3, 5, 7, 9] : List Nat).toFinset ∩ ([3, 9] : List Nat).toFinset).card
        = (([1, 3, 5, 7, 9] : List Nat).toFinset ∩ ([3, 9] : List Nat).toFinset).sort (· ≤ ·) ∧
      (out'.take (([1, 3, 5, 7, 9] : List Nat).toFinset ∩
            ([3, 9] : List Nat).toFinset).card).Sorted (· < ·) :=
  gallop_intersection [1, 3, 5, 7, 9] [3, 9] [0, 0] (by decide) (by decide) (by decide)

/-- C3: on a strictly increasing array of length `n`, for `pos < n` and any `min`,
`__frogadvanceUntil` returns the smallest index `r` with `pos < r < n` whose value is at
least `min`; when no index after `pos` holds such a value it returns `n`. -/
theorem frogadvanceUntil_smallest_index (a : List Nat) (hs : a.Sorted (· < ·))
    (pos min : Nat) (hpos : pos < a.length) :
    ∃ r, __frogadvanceUntil a pos a.length min = Outcome.ok r ∧ pos < r ∧
      ((r < a.length ∧ (∃ v, a[r]? = some v ∧ min ≤ v) ∧
          ∀ i v, pos < i → i < r → a[i]? = some v → v < min) ∨
        (r = a.length ∧ ∀ i v, pos < i → a[i]? = some v → v < min)) := by
  obtain ⟨r, hr, h1, h2, h3, h4⟩ := frog_spec a hs pos min hpos
  refine ⟨r, hr, h1, ?_⟩
  have hread : ∀ i v, a[i]? = some v → i < a.length ∧ a.getD i 0 = v := by
    intro i v hv
    rcases Nat.lt_or_ge i a.length with h | h
    · rw [read_eq a i h] at hv
      exact ⟨h, Option.some.inj hv⟩
    · rw [List.getElem?_eq_none h] at hv
      cases hv
  rcases Nat.lt_or_ge r a.length with hlt | hge
  · left
    refine ⟨hlt, ⟨a.getD r 0, read_eq a r hlt, h3 hlt⟩, ?_⟩
    intro i v hpi hir hv
    rw [← (hread i v hv).2]
    exact h4 i hpi hir
  · right
    refine ⟨by omega, ?_⟩
    intro i v hpi hv
    obtain ⟨hi, hval⟩ := hread i v hv
    rw [← hval]
    exact h4 i hpi (by omega)

/-- Witness of C3: a search that needs the doubling and the binary search. -/
theorem frogadvanceUntil_smallest_index_witness :
    ∃ r, __frogadvanceUntil [1, 3, 5, 7, 9, 11, 13, 15, 17] 0
        ([1, 3, 5, 7, 9, 11, 13, 15, 17] : List Nat).length 12 = Outcome.ok r ∧ 0 < r ∧
      ((r < ([1, 3, 5, 7, 9, 11, 13, 15, 17] : List Nat).length ∧
          (∃ v, ([1, 3, 5, 7, 9, 11, 13, 15, 17] : List Nat)[r]? = some v ∧ 12 ≤ v) ∧
          ∀ i v, 0 < i → i < r →
            ([1, 3, 5, 7, 9, 11, 13, 15, 17] : List Nat)[i]? = some v → v < 12) ∨
        (r = ([1, 3, 5, 7, 9, 11, 13, 15, 17] : List Nat).length ∧
          ∀ i v, 0 < i → ([1, 3, 5, 7, 9, 11, 13, 15, 17] : List Nat)[i]? = some v → v < 12)) :=
  frogadvanceUntil_smallest_index [1, 3, 5, 7, 9, 11, 13, 15, 17] (by decide) 0 12 (by decide)

/-- C4 (evaluation at the failing input): in cardinality-only mode, `A = [1, 2]` and
`B = [1, 3]` have one common value, yet with `out` absent the call returns no count: the
store of the first match goes through the null pointer. -/
theorem scalar_cardinality_mode_absent_out :
    ([1, 2] : List Nat).Sorted (· < ·) ∧ ([1, 3] : List Nat).Sorted (· < ·) ∧
      (([1, 2] : List Nat).toFinset ∩ ([1, 3] : List Nat).toFinset).card = 1 ∧
      scalar false [1, 2] 2 [1, 3] 2 [] = Outcome.fault := by
  refine ⟨by decide, by decide, by decide, by decide⟩

/-- C5 (evaluation at the failing input): in cardinality-only mode the call stores every
match through `out`: a region holding `[0]` holds `[1]` after intersecting `[1]` with `[1]`,
and with `out` absent the store is attempted all the same. -/
theorem scalar_cardinality_mode_writes :
    scalar false [1] 1 [1] 1 [0] = Outcome.ok (1, [1]) ∧
      scalar false [1] 1 [1] 1 [] = Outcome.fault := by
  refine ⟨by decide, by decide⟩

/-- C6: on strictly increasing `A` and `B`, `onesidedgallopingintersection` and `scalar` in
materializing mode have the same outcome for every output region: the same count and the
same contents, in particular the same values in `out[0..count)`; and with a region of
capacity at least `min lenA lenB` both do return a count. -/
theorem gallop_eq_scalar (A B out : List Nat) (hA : A.Sorted (· < ·))
    (hB : B.Sorted (· < ·)) :
    onesidedgallopingintersection A A.length B B.length out
        = scalar true A A.length B B.length out ∧
      (min A.length B.length ≤ out.length →
        ∃ c out', scalar true A A.length B B.length out = Outcome.ok (c, out')) := by
  refine ⟨?_, fun hcap => ?_⟩
  · rw [gallop_sorted A B out hA hB, scalar_sorted true A B out hA hB]
  · have hc := common_card_le A B
    exact ⟨_, _, scalar_sorted_ok true A B out hA hB (by omega)⟩

/-- Witness of C6 on scenario 1 of the specification. -/
theorem gallop_eq_scalar_witness :
    onesidedgallopingintersection [1, 3, 5, 7, 9] ([1, 3, 5, 7, 9] : List Nat).length
        [3, 4, 5, 6, 9] ([3, 4, 5, 6, 9] : List Nat).length [0, 0, 0, 0, 0]
        = scalar true [1, 3, 5, 7, 9] ([1, 3, 5, 7, 9] : List Nat).length
          [3, 4, 5, 6, 9] ([3, 4, 5, 6, 9] : List Nat).length [0, 0, 0, 0, 0] ∧
      (min ([1, 3, 5, 7, 9] : List Nat).length ([3, 4, 5, 6, 9] : List Nat).length
          ≤ ([0, 0, 0, 0, 0] : List Nat).length →
        ∃ c out', scalar true [1, 3, 5, 7, 9] ([1, 3, 5, 7, 9] : List Nat).length
          [3, 4, 5, 6, 9] ([3, 4, 5, 6, 9] : List Nat).length [0, 0, 0, 0, 0]
          = Outcome.ok (c, out')) :=
  gallop_eq_scalar [1, 3, 5, 7, 9] [3, 4, 5, 6, 9] [0, 0, 0, 0, 0] (by decide) (by decide)

/-- C7 (counterexample): the search starts after `pos` and never looks at `seq[pos]` or
before.  In `[5, 10]` the target `3` does not occur and the first element greater than it has
index `0`, yet the search from `pos = 0` returns `1`; in `[3, 5]` the target `3` occurs, yet
the search from `pos = 0` returns `1`, where the value is `5`. -/
theorem frogadvanceUntil_not_whole_sequence :
    (([5, 10] : List Nat).Sorted (· < ·) ∧ 3 ∉ ([5, 10] : List Nat) ∧
        ([5, 10] : List Nat)[0]? = some 5 ∧ 3 < 5 ∧
        __frogadvanceUntil [5, 10] 0 2 3 = Outcome.ok 1) ∧
      (([3, 5] : List Nat).Sorted (· < ·) ∧ 3 ∈ ([3, 5] : List Nat) ∧
        __frogadvanceUntil [3, 5] 0 2 3 = Outcome.ok 1 ∧ ([3, 5] : List Nat)[1]? = some 5) := by
  refine ⟨⟨by decide, by decide, by decide, by decide, by decide⟩,
    ⟨by decide, by decide, by decide, by decide⟩⟩

/-- C7 (amended): on a strictly increasing `seq` of length `n`, for `pos < n` and any
target, the search returns an index `r` with `pos < r ≤ n`.  If the target does not occur
after `pos`, then `r` is the index of the first element after `pos` that is strictly greater
than the target (every element between `pos` and `r` is smaller, and `r = n` when no element
after `pos` is greater); if the target occurs after `pos`, then `seq[r]` is the target. -/
theorem frogadvanceUntil_after_pos (seq : List Nat) (hs : seq.Sorted (· < ·))
    (pos target : Nat) (hpos : pos < seq.length) :
    ∃ r, __frogadvanceUntil seq pos seq.length target = Outcome.ok r ∧ pos < r ∧
      r ≤ seq.length ∧
      ((∀ i, pos < i → seq[i]? ≠ some target) →
        (∀ v, seq[r]? = some v → target < v) ∧
          ∀ i v, pos < i → i < r → seq[i]? = some v → v < target) ∧
      ((∃ i, pos < i ∧ seq[i]? = some target) → seq[r]? = some target) := by
  obtain ⟨r, hr, h1, h2, h3, h4⟩ := frog_spec seq hs pos target hpos
  refine ⟨r, hr, h1, h2, ?_, ?_⟩
  · intro habsent
    constructor
    · intro v hv
      rcases Nat.lt_or_ge r seq.length with h | h
      · rw [read_eq seq r h] at hv
        have hv' : seq.getD r 0 = v := Option.some.inj hv
        have hge := h3 h
        have hne : v ≠ target := by
          intro heq
          apply habsent r h1
          rw [read_eq seq r h, hv', heq]
        omega
      · rw [List.getElem?_eq_none h] at hv
        cases hv
    · intro i v hpi hir hv
      have hi : i < seq.length := by omega
      rw [read_eq seq i hi] at hv
      rw [← Option.some.inj hv]
      exact h4 i hpi hir
  · rintro ⟨i, hpi, hi⟩
    have hil : i < seq.length := by
      rcases Nat.lt_or_ge i seq.length with h | h
      · exact h
      · rw [List.getElem?_eq_none h] at hi
        cases hi
    rw [read_eq seq i hil] at hi
    have hval : seq.getD i 0 = target := Option.some.inj hi
    have hri : r ≤ i := by
      by_contra hcon
      have := h4 i hpi (by omega)
      omega
    have hrl : r < seq.length := by omega
    have hge := h3 hrl
    have hle := sorted_read_le seq hs r i hri hil
    rw [read_eq seq r hrl]
    congr 1
    omega

/-- Witness of the amended C7: the target `7` occurs after position `1`. -/
theorem frogadvanceUntil_after_pos_witness :
    ∃ r, __frogadvanceUntil [1, 3, 5, 7, 9] 1 ([1, 3, 5, 7, 9] : List Nat).length 7
        = Outcome.ok r ∧ 1 < r ∧ r ≤ ([1, 3, 5, 7, 9] : List Nat).length ∧
      ((∀ i, 1 < i → ([1, 3, 5, 7, 9] : List Nat)[i]? ≠ some 7) →
        (∀ v, ([1, 3, 5, 7, 9] : List Nat)[r]? = some v → 7 < v) ∧
          ∀ i v, 1 < i → i < r → ([1, 3, 5, 7, 9] : List Nat)[i]? = some v → v < 7) ∧
      ((∃ i, 1 < i ∧ ([1, 3, 5, 7, 9] : List Nat)[i]? = some 7) →
        ([1, 3, 5, 7, 9] : List Nat)[r]? = some 7) :=
  frogadvanceUntil_after_pos [1, 3, 5, 7, 9] (by decide) 1 7 (by decide)

/-- C8: when at least one of the two lengths is `0`, each of
`onesidedgallopingintersection`, `scalar` (materializing) and `match_scalar` returns `0`
and leaves every position of the output region as it was, whatever the arrays hold. -/
theorem empty_input_returns_zero (A B out : List Nat) (lenA lenB : Nat)
    (h : lenA = 0 ∨ lenB = 0) :
    onesidedgallopingintersection A lenA B lenB out = Outcome.ok (0, out) ∧
      scalar true A lenA B lenB out = Outcome.ok (0, out) ∧
      match_scalar A lenA B lenB out = Outcome.ok (0, out) := by
  refine ⟨?_, ?_, ?_⟩
  · unfold onesidedgallopingintersection
    by_cases hswap : lenB < lenA
    · have hB : lenB = 0 := by omega
      rw [if_pos hswap, hB]
      rfl
    · have hA : lenA = 0 := by omega
      rw [if_neg hswap, hA]
      rfl
  · unfold scalar
    rcases h with h | h <;> simp [h]
  · unfold match_scalar
    rcases h with h | h <;> simp [h]

/-- Witness of C8 on scenario 2 of the specification. -/
theorem empty_input_returns_zero_witness :
    onesidedgallopingintersection [] 0 [1, 2, 3] 3 [7, 7, 7] = Outcome.ok (0, [7, 7, 7]) ∧
      scalar true [] 0 [1, 2, 3] 3 [7, 7, 7] = Outcome.ok (0, [7, 7, 7]) ∧
      match_scalar [] 0 [1, 2, 3] 3 [7, 7, 7] = Outcome.ok (0, [7, 7, 7]) :=
  empty_input_returns_zero [] [1, 2, 3] [7, 7, 7] 0 3 (Or.inl rfl)

/-- C9: intersecting a strictly increasing `A` with itself returns `len(A)` and leaves `A`
in the first `len(A)` positions of the output region, for both
`onesidedgallopingintersection` and `scalar` in materializing mode. -/
theorem self_intersection (A out : List Nat) (hA : A.Sorted (· < ·))
    (hcap : A.length ≤ out.length) :
    (∃ out', onesidedgallopingintersection A A.length A A.length out
        = Outcome.ok (A.length, out') ∧ out'.take A.length = A) ∧
      (∃ out', scalar true A A.length A A.length out
        = Outcome.ok (A.length, out') ∧ out'.take A.length = A) := by
  have hcard : (A.toFinset ∩ A.toFinset).card = A.length := by
    rw [Finset.inter_self, List.toFinset_card_of_nodup hA.nodup]
  have hsort : (A.toFinset ∩ A.toFinset).sort (· ≤ ·) = A := by
    rw [Finset.inter_self]
    exact (List.toFinset_sort (· ≤ ·) hA.nodup).mpr hA.le_of_lt
  have hg := gallop_sorted_ok A A out hA hA (by omega)
  have hsc := scalar_sorted_ok true A A out hA hA (by omega)
  rw [hcard, hsort] at hg hsc
  exact ⟨⟨_, hg, take_written A out _ rfl⟩, ⟨_, hsc, take_written A out _ rfl⟩⟩

/-- Witness of C9 on scenario 4 of the specification. -/
theorem self_intersection_witness :
    (∃ out', onesidedgallopingintersection [10, 20, 30] ([10, 20, 30] : List Nat).length
        [10, 20, 30] ([10, 20, 30] : List Nat).length [0, 0, 0, 0]
        = Outcome.ok (([10, 20, 30] : List Nat).length, out') ∧
        out'.take ([10, 20, 30] : List Nat).length = [10, 20, 30]) ∧
      (∃ out', scalar true [10, 20, 30] ([10, 20, 30] : List Nat).length
        [10, 20, 30] ([10, 20, 30] : List Nat).length [0, 0, 0, 0]
        = Outcome.ok (([10, 20, 30] : List Nat).length, out') ∧
        out'.take ([10, 20, 30] : List Nat).length = [10, 20, 30]) :=
  self_intersection [10, 20, 30] [0, 0, 0, 0] (by decide) (by decide)

/-- C10: on strictly increasing inputs and for every initial contents of the output
region, when `onesidedgallopingintersection` or `scalar` (materializing) returns the count
`c`, then `c ≤ min lenA lenB`, the region has kept its capacity, and every position at an
index `≥ c` holds the value it held before the call. -/
theorem writes_confined_to_count (A B out : List Nat) (hA : A.Sorted (· < ·))
    (hB : B.Sorted (· < ·)) (c : Nat) (out' : List Nat)
    (hret : onesidedgallopingintersection A A.length B B.length out = Outcome.ok (c, out') ∨
      scalar true A A.length B B.length out = Outcome.ok (c, out')) :
    c ≤ min A.length B.length ∧ out'.length = out.length ∧
      ∀ k, c ≤ k → out'[k]? = out[k]? := by
  rcases hret with h | h
  · rw [gallop_sorted A B out hA hB] at h
    exact frame_of_outcome A B out c out' h
  · rw [scalar_sorted true A B out hA hB] at h
    exact frame_of_outcome A B out c out' h

/-- Witness of C10 on scenario 4 of the specification, with a longer output region. -/
theorem writes_confined_to_count_witness :
    onesidedgallopingintersection [10, 20, 30] 3 [10, 20, 30] 3 [7, 7, 7, 7, 7]
        = Outcome.ok (3, [10, 20, 30, 7, 7]) ∧
      3 ≤ min ([10, 20, 30] : List Nat).length ([10, 20, 30] : List Nat).length ∧
      ([10, 20, 30, 7, 7] : List Nat).length = ([7, 7, 7, 7, 7] : List Nat).length ∧
      ∀ k, 3 ≤ k → ([10, 20, 30, 7, 7] : List Nat)[k]? = ([7, 7, 7, 7, 7] : List Nat)[k]? :=
  ⟨by decide,
    writes_confined_to_count [10, 20, 30] [10, 20, 30] [7, 7, 7, 7, 7] (by decide) (by decide)
      3 [10, 20, 30, 7, 7] (Or.inl (by decide))⟩

/-! ## The kernels on arbitrary contents -/

/-- Without any order on the array the binary search still ends, inside the interval, at an
index whose value reaches `min`. -/
theorem binarySearchLoop_total (a : List Nat) (min : Nat) :
    ∀ (fuel lower upper : Nat), lower < upper → upper < a.length → upper - lower ≤ fuel →
      min ≤ a.getD upper 0 →
      ∃ r, binarySearchLoop a min fuel lower upper = Outcome.ok r ∧ lower < r ∧ r ≤ upper ∧
        min ≤ a.getD r 0 := by
  intro fuel
  induction fuel with
  | zero => intro _ _ h _ h'; omega
  | succ f ih =>
    intro lower upper hlu hu hfuel hup
    unfold binarySearchLoop
    by_cases hadj : lower + 1 = upper
    · simp only [hadj, bne_self_eq_false, Bool.false_eq_true, if_false]
      exact ⟨upper, rfl, hlu, le_refl _, hup⟩
    · have hne : (lower + 1 != upper) = true := by simpa using hadj
      simp only [hne, if_true]
      have hmid : (lower + upper) / 2 < a.length := by omega
      rw [read_eq a _ hmid]
      by_cases heq : a.getD ((lower + upper) / 2) 0 = min
      · simp only [heq, beq_self_eq_true, if_true]
        exact ⟨(lower + upper) / 2, rfl, by omega, by omega, by omega⟩
      · have hbne : (a.getD ((lower + upper) / 2) 0 == min) = false := by simpa using heq
        simp only [hbne, Bool.false_eq_true, if_false]
        by_cases hv : a.getD ((lower + upper) / 2) 0 < min
        · simp only [hv, if_true]
          obtain ⟨r, hr, h1, h2, h3⟩ :=
            ih ((lower + upper) / 2) upper (by omega) hu (by omega) hup
          exact ⟨r, hr, by omega, h2, h3⟩
        · simp only [hv, if_false]
          obtain ⟨r, hr, h1, h2, h3⟩ :=
            ih lower ((lower + upper) / 2) (by omega) hmid (by omega) (by omega)
          exact ⟨r, hr, h1, by omega, h3⟩

/-- The galloping search on an array of any contents, called with its true length: every
read is inside the array, and the result `r` has `pos < r ≤ length` and, inside the array,
a value that reaches `min`. -/
theorem frog_total (a : List Nat) (pos min : Nat) (hpos : pos < a.length) :
    ∃ r, __frogadvanceUntil a pos a.length min = Outcome.ok r ∧ pos < r ∧ r ≤ a.length ∧
      (r < a.length → min ≤ a.getD r 0) := by
  unfold __frogadvanceUntil
  by_cases hend : pos + 1 ≥ a.length
  · simp only [hend, if_true]
    exact ⟨pos + 1, rfl, by omega, by omega, fun h => by omega⟩
  · simp only [hend, if_false]
    have hlow : pos + 1 < a.length := by omega
    rw [read_eq a _ hlow]
    by_cases hfast : a.getD (pos + 1) 0 ≥ min
    · simp only [hfast, if_true]
      exact ⟨pos + 1, rfl, by omega, by omega, fun _ => hfast⟩
    · simp only [hfast, if_false]
      obtain ⟨s, hsp, hs1, hhalf, hhalflt, hreach⟩ :=
        gallopSpan_spec a min (pos + 1) a.length 1 (le_refl _) (by omega) (by omega)
          (by simpa using hlow) (by simpa using hfast)
      simp only [hsp]
      by_cases hin : pos + 1 + s < a.length
      · simp only [hin, if_true]
        rw [read_eq a _ hin]
        have hup := hreach hin
        have hnlt : ¬ a.getD (pos + 1 + s) 0 < min := by omega
        simp only [hnlt, if_false]
        obtain ⟨r, hr, h1, h2, h3⟩ :=
          binarySearchLoop_total a min a.length (pos + 1 + s / 2) (pos + 1 + s)
            (by omega) hin (by omega) hup
        exact ⟨r, hr, by omega, by omega, fun _ => h3⟩
      · simp only [hin, if_false]
        have hlast : a.length - 1 < a.length := by omega
        rw [read_eq a _ hlast]
        by_cases hu : a.getD (a.length - 1) 0 < min
        · simp only [hu, if_true]
          exact ⟨a.length, rfl, by omega, le_refl _, fun h => by omega⟩
        · simp only [hu, if_false]
          have hne : pos + 1 + s / 2 ≠ a.length - 1 := by
            intro h; rw [h] at hhalflt; exact hu hhalflt
          obtain ⟨r, hr, h1, h2, h3⟩ :=
            binarySearchLoop_total a min a.length (pos + 1 + s / 2) (a.length - 1)
              (by omega) hlast (by omega) (by omega)
          exact ⟨r, hr, by omega, by omega, fun _ => h3⟩

/-- The loop of `onesidedgallopingintersection` on arrays of any contents, called with
their true lengths: it ends within its fuel, every read is inside the arrays, and the only
access that can leave its region is a store into an output region with fewer free
positions than small elements are left. -/
theorem gallopLoop_total (S L : List Nat) :
    ∀ (fuel : Nat) (pc : GallopPc) (k1 k2 : Nat) (out : List Nat) (cursor : Nat),
      k1 < L.length → k2 < S.length →
      2 * (S.length - k2) + (if pc = GallopPc.loopHead then 1 else 0) ≤ fuel →
      (∃ c out', gallopLoop S S.length L L.length fuel pc k1 k2 out cursor
          = Outcome.ok (c, out')) ∨
        (gallopLoop S S.length L L.length fuel pc k1 k2 out cursor = Outcome.fault ∧
          out.length < cursor + (S.length - k2)) := by
  intro fuel
  induction fuel with
  | zero => intro pc k1 k2 out cursor _ h2 hf; omega
  | succ f ih =>
    intro pc k1 k2 out cursor hk1 hk2 hfuel
    cases pc with
    | loopHead =>
      simp only [if_true] at hfuel
      unfold gallopLoop
      rw [read_eq L k1 hk1, read_eq S k2 hk2]
      simp only []
      by_cases hlt : L.getD k1 0 < S.getD k2 0
      · simp only [hlt, if_true]
        obtain ⟨r, hr, hr1, hr2, _⟩ := frog_total L k1 (S.getD k2 0) hk1
        simp only [hr]
        by_cases hend : r = L.length
        · left
          exact ⟨cursor, out, by simp [hend]⟩
        · have hne : (r == L.length) = false := by simpa using hend
          simp only [hne, Bool.false_eq_true, if_false]
          exact ih GallopPc.midpoint r k2 out cursor (by omega) hk2 (by simp; omega)
      · simp only [hlt, if_false]
        exact ih GallopPc.midpoint k1 k2 out cursor hk1 hk2 (by simp; omega)
    | midpoint =>
      simp only [reduceCtorEq, if_false] at hfuel
      unfold gallopLoop
      rw [read_eq L k1 hk1, read_eq S k2 hk2]
      simp only []
      by_cases hlt : S.getD k2 0 < L.getD k1 0
      · simp only [hlt, if_true]
        by_cases hend : k2 + 1 = S.length
        · left
          exact ⟨cursor, out, by simp [hend]⟩
        · have hne : (k2 + 1 == S.length) = false := by simpa using hend
          simp only [hne, Bool.false_eq_true, if_false]
          rcases ih GallopPc.loopHead k1 (k2 + 1) out cursor hk1 (by omega) (by simp; omega)
            with h | ⟨h1, h2⟩
          · exact Or.inl h
          · exact Or.inr ⟨h1, by omega⟩
      · simp only [hlt, if_false]
        by_cases hroom : cursor < out.length
        · rw [store_ok out cursor _ hroom]
          simp only []
          by_cases hend : k2 + 1 = S.length
          · left
            exact ⟨cursor + 1, out.set cursor (S.getD k2 0), by simp [hend]⟩
          · have hne : (k2 + 1 == S.length) = false := by simpa using hend
            simp only [hne, Bool.false_eq_true, if_false]
            have hk2' : k2 + 1 < S.length := by omega
            rw [read_eq S (k2 + 1) hk2']
            simp only []
            obtain ⟨r, hr, hr1, hr2, _⟩ := frog_total L k1 (S.getD (k2 + 1) 0) hk1
            simp only [hr]
            by_cases hend1 : r = L.length
            · left
              exact ⟨cursor + 1, out.set cursor (S.getD k2 0), by simp [hend1]⟩
            · have hne1 : (r == L.length) = false := by simpa using hend1
              simp only [hne1, Bool.false_eq_true, if_false]
              rcases ih GallopPc.midpoint r (k2 + 1) (out.set cursor (S.getD k2 0))
                (cursor + 1) (by omega) hk2' (by simp; omega) with h | ⟨h1, h2⟩
              · exact Or.inl h
              · rw [List.length_set] at h2
                exact Or.inr ⟨h1, by omega⟩
        · right
          rw [store_full out cursor _ hroom]
          exact ⟨rfl, by omega⟩

/-- The body of `onesidedgallopingintersection` on arrays of any contents, the first not
the longer. -/
theorem gallopBody_total (S L out : List Nat) (hlen : S.length ≤ L.length) :
    (∃ c out', gallopBody S S.length L L.length out = Outcome.ok (c, out')) ∨
      (gallopBody S S.length L L.length out = Outcome.fault ∧ out.length < S.length) := by
  unfold gallopBody
  by_cases h0 : S.length = 0
  · left
    exact ⟨0, out, by simp [h0]⟩
  · have hne : (0 == S.length) = false := by simpa using fun h => h0 h.symm
    simp only [hne, Bool.false_eq_true, if_false]
    rcases gallopLoop_total S L (2 * S.length + 2) GallopPc.loopHead 0 0 out 0
      (by omega) (by omega) (by simp) with h | ⟨h1, h2⟩
    · exact Or.inl h
    · exact Or.inr ⟨h1, by omega⟩

/-- `onesidedgallopingintersection` on arrays of any contents, called with their true
lengths: it returns, unless the output region is smaller than the shorter input. -/
theorem gallop_total (A B out : List Nat) :
    (∃ c out', onesidedgallopingintersection A A.length B B.length out
        = Outcome.ok (c, out')) ∨
      (onesidedgallopingintersection A A.length B B.length out = Outcome.fault ∧
        out.length < min A.length B.length) := by
  unfold onesidedgallopingintersection
  by_cases hswap : B.length < A.length
  · rw [if_pos hswap]
    rcases gallopBody_total B A out (by omega) with h | ⟨h1, h2⟩
    · exact Or.inl h
    · exact Or.inr ⟨h1, by omega⟩
  · rw [if_neg hswap]
    rcases gallopBody_total A B out (by omega) with h | ⟨h1, h2⟩
    · exact Or.inl h
    · exact Or.inr ⟨h1, by omega⟩

/-- The loop of `scalar` on arrays of any contents, called with their true lengths: it
ends within its fuel, every read is inside the arrays, and the only access that can leave
its region is a store into an output region with fewer free positions than pairs of
elements are left. -/
theorem scalarLoop_total (e : Bool) (A B : List Nat) :
    ∀ (fuel : Nat) (pc : MergePc) (i j : Nat) (out : List Nat) (cursor n : Nat),
      i < A.length → j < B.length →
      4 * ((A.length - i) + (B.length - j)) + mergeRank pc ≤ fuel →
      (∃ c out', scalarLoop e A A.length B B.length fuel pc i j out cursor n
          = Outcome.ok (c, out')) ∨
        (scalarLoop e A A.length B B.length fuel pc i j out cursor n = Outcome.fault ∧
          out.length < cursor + min (A.length - i) (B.length - j)) := by
  intro fuel
  induction fuel with
  | zero => intro pc i j out cursor n hi hj hf; omega
  | succ f ih =>
    intro pc i j out cursor n hi hj hfuel
    cases pc with
    | whileLess =>
      simp only [mergeRank] at hfuel
      unfold scalarLoop
      rw [read_eq A i hi, read_eq B j hj]
      simp only []
      by_cases hlt : A.getD i 0 < B.getD j 0
      · simp only [hlt, if_true]
        exact ih MergePc.skipFirstCompare i j out cursor n hi hj
          (by simp only [mergeRank]; omega)
      · simp only [hlt, if_false]
        exact ih MergePc.whileGreater i j out cursor n hi hj
          (by simp only [mergeRank]; omega)
    | skipFirstCompare =>
      simp only [mergeRank] at hfuel
      unfold scalarLoop
      by_cases hend : i + 1 = A.length
      · left
        exact ⟨cursor, out, by simp [hend]⟩
      · have hne : (i + 1 == A.length) = false := by simpa using hend
        simp only [hne, Bool.false_eq_true, if_false]
        rcases ih MergePc.whileLess (i + 1) j out cursor n (by omega) hj
          (by simp only [mergeRank]; omega) with h | ⟨h1, h2⟩
        · exact Or.inl h
        · exact Or.inr ⟨h1, by omega⟩
    | whileGreater =>
      simp only [mergeRank] at hfuel
      unfold scalarLoop
      rw [read_eq A i hi, read_eq B j hj]
      simp only []
      by_cases hgt : A.getD i 0 > B.getD j 0
      · simp only [hgt, if_true]
        by_cases hend : j + 1 = B.length
        · left
          exact ⟨cursor, out, by simp [hend]⟩
        · have hne : (j + 1 == B.length) = false := by simpa using hend
          simp only [hne, Bool.false_eq_true, if_false]
          rcases ih MergePc.whileGreater i (j + 1) out cursor n hi (by omega)
            (by simp only [mergeRank]; omega) with h | ⟨h1, h2⟩
          · exact Or.inl h
          · exact Or.inr ⟨h1, by omega⟩
      · simp only [hgt, if_false]
        exact ih MergePc.ifEqual i j out cursor n hi hj (by simp only [mergeRank]; omega)
    | ifEqual =>
      simp only [mergeRank] at hfuel
      unfold scalarLoop
      rw [read_eq A i hi, read_eq B j hj]
      simp only []
      by_cases heq : A.getD i 0 = B.getD j 0
      · have hbeq : (A.getD i 0 == B.getD j 0) = true := by simpa using heq
        simp only [hbeq, if_true, CONST_IF]
        by_cases hroom : cursor < out.length
        · rw [store_ok out cursor _ hroom]
          simp only []
          by_cases hendA : i + 1 = A.length
          · left
            exact ⟨cursor + 1, out.set cursor (A.getD i 0), by simp [hendA]⟩
          · by_cases hendB : j + 1 = B.length
            · left
              exact ⟨cursor + 1, out.set cursor (A.getD i 0), by simp [hendB]⟩
            · have hne : (i + 1 == A.length || j + 1 == B.length) = false := by
                simp [hendA, hendB]
              simp only [hne, Bool.false_eq_true, if_false]
              rcases ih MergePc.whileLess (i + 1) (j + 1) (out.set cursor (A.getD i 0))
                (cursor + 1) n (by omega) (by omega) (by simp only [mergeRank]; omega)
                with h | ⟨h1, h2⟩
              · exact Or.inl h
              · rw [List.length_set] at h2
                exact Or.inr ⟨h1, by omega⟩
        · right
          rw [store_full out cursor _ hroom]
          exact ⟨rfl, by omega⟩
      · have hbne : (A.getD i 0 == B.getD j 0) = false := by simpa using heq
        simp only [hbne, Bool.false_eq_true, if_false]
        exact ih MergePc.skipFirstCompare i j out cursor n hi hj
          (by simp only [mergeRank]; omega)

/-- `scalar` on arrays of any contents, called with their true lengths: it returns, unless
the output region is smaller than the shorter input. -/
theorem scalar_total (e : Bool) (A B out : List Nat) :
    (∃ c out', scalar e A A.length B B.length out = Outcome.ok (c, out')) ∨
      (scalar e A A.length B B.length out = Outcome.fault ∧
        out.length < min A.length B.length) := by
  unfold scalar
  by_cases h0 : (A.length == 0 || B.length == 0) = true
  · left
    exact ⟨0, out, by rw [if_pos h0]⟩
  · rw [if_neg h0]
    have h0' : A.length ≠ 0 ∧ B.length ≠ 0 := by simpa using h0
    rcases scalarLoop_total e A B (4 * (A.length + B.length) + 4) MergePc.whileLess 0 0 out 0 0
      (by omega) (by omega) (by simp only [mergeRank]; omega) with h | ⟨h1, h2⟩
    · exact Or.inl h
    · exact Or.inr ⟨h1, by simpa using h2⟩

/-- The loops of `scalar` and of `match_scalar` compute the same, step by step. -/
theorem scalarLoop_eq_matchLoop (e : Bool) (A : List Nat) (lenA : Nat) (B : List Nat)
    (lenB : Nat) :
    ∀ (fuel : Nat) (pc : MergePc) (i j : Nat) (out : List Nat) (cursor n : Nat),
      scalarLoop e A lenA B lenB fuel pc i j out cursor n
        = matchLoop A lenA B lenB fuel pc i j out cursor := by
  intro fuel
  induction fuel with
  | zero => intro pc i j out cursor n; cases pc <;> rfl
  | succ f ih =>
    intro pc i j out cursor n
    cases pc <;> simp only [scalarLoop, matchLoop, CONST_IF, ih, if_true]

/-- `scalar`, in either mode, and `match_scalar` have the same outcome on every input. -/
theorem scalar_eq_match (e : Bool) (A : List Nat) (lenA : Nat) (B : List Nat) (lenB : Nat)
    (out : List Nat) : scalar e A lenA B lenB out = match_scalar A lenA B lenB out := by
  unfold scalar match_scalar
  rw [scalarLoop_eq_matchLoop]

/-- A read below `n` does not see whether the array continues after `n`. -/
theorem read_take (a : List Nat) (n k : Nat) (h : k < n) : (a.take n)[k]? = a[k]? := by
  rw [List.getElem?_take, if_pos h]

/-- The doubling loop run with length `n` only reads below `n`: the elements from `n` on
can be cut off. -/
theorem gallopSpan_take (a : List Nat) (n min lower : Nat) :
    ∀ (fuel spansize : Nat),
      gallopSpan a n min lower fuel spansize
        = gallopSpan (a.take n) n min lower fuel spansize := by
  intro fuel
  induction fuel with
  | zero => intro _; rfl
  | succ f ih =>
    intro spansize
    unfold gallopSpan
    by_cases hin : lower + spansize < n
    · rw [if_pos hin, if_pos hin, read_take a n _ hin]
      cases a[lower + spansize]? with
      | none => rfl
      | some v => simp only [ih]
    · rw [if_neg hin, if_neg hin]

/-- The binary search between two indices below `n` only reads below `n`. -/
theorem binarySearchLoop_take (a : List Nat) (n min : Nat) :
    ∀ (fuel lower upper : Nat), lower < n → upper < n →
      binarySearchLoop a min fuel lower upper
        = binarySearchLoop (a.take n) min fuel lower upper := by
  intro fuel
  induction fuel with
  | zero => intro _ _ _ _; rfl
  | succ f ih =>
    intro lower upper hl hu
    have hmid : (lower + upper) / 2 < n := by omega
    unfold binarySearchLoop
    dsimp only
    rw [read_take a n _ hmid]
    cases a[(lower + upper) / 2]? with
    | none => rfl
    | some v => simp only [ih _ _ hmid hu, ih _ _ hl hmid]

/-- The galloping search run with length `n` on an array of at least `n` elements only
reads below `n`: it runs as on the array cut off after `n` elements, where any other read
would be a fault. -/
theorem frog_take (a : List Nat) (n pos min : Nat) (hn : n ≤ a.length) (hpos : pos < n) :
    __frogadvanceUntil a pos n min = __frogadvanceUntil (a.take n) pos n min := by
  have hlen : (a.take n).length = n := by rw [List.length_take]; omega
  obtain ⟨r, hr, _⟩ := frog_total (a.take n) pos min (by omega)
  rw [hlen] at hr
  unfold __frogadvanceUntil at hr ⊢
  by_cases hend : pos + 1 ≥ n
  · simp only [hend, if_true]
  · simp only [hend, if_false] at hr ⊢
    have hlow : pos + 1 < n := by omega
    rw [read_take a n _ hlow] at hr ⊢
    rw [← gallopSpan_take a n min (pos + 1) n 1] at hr ⊢
    cases hfirst : a[pos + 1]? with
    | none => rfl
    | some v =>
      rw [hfirst] at hr
      simp only [] at hr ⊢
      by_cases hfast : v ≥ min
      · simp only [hfast, if_true]
      · simp only [hfast, if_false] at hr ⊢
        cases hspan : gallopSpan a n min (pos + 1) n 1 with
        | fault => rfl
        | timeout => rfl
        | ok spansize =>
          rw [hspan] at hr
          simp only [] at hr ⊢
          have hup : (if pos + 1 + spansize < n then pos + 1 + spansize else n - 1) < n := by
            split <;> omega
          rw [read_take a n _ hup] at hr ⊢
          cases hlast : a[if pos + 1 + spansize < n then pos + 1 + spansize else n - 1]? with
          | none => rfl
          | some u =>
            rw [hlast] at hr
            simp only [] at hr ⊢
            by_cases hu : u < min
            · simp only [hu, if_true]
            · simp only [hu, if_false] at hr ⊢
              by_cases hhalf : pos + 1 + spansize / 2 < n
              · exact binarySearchLoop_take a n min n _ _ hhalf hup
              · exfalso
                have hspec := gallopSpan_spec (a.take n) min (pos + 1) (a.take n).length 1
                  (le_refl _) (by omega) (by omega) (by simpa [hlen] using hlow)
                  (by
                    have h1 : (a.take n)[pos + 1]? = some v := by
                      rw [read_take a n _ hlow]; exact hfirst
                    rw [read_eq (a.take n) _ (by omega)] at h1
                    have h2 : (a.take n).getD (pos + 1) 0 = v := Option.some.inj h1
                    simp only [Nat.reduceDiv, Nat.add_zero]
                    omega)
                obtain ⟨s', hs', _, hb, _⟩ := hspec
                rw [hlen, ← gallopSpan_take a n min (pos + 1) n 1, hspan] at hs'
                have hss : spansize = s' := by
                  injection hs'
                rw [← hss] at hb
                omega

/-- The galloping search run with length `n` on an array of at least `n` elements. -/
theorem frog_total_prefix (a : List Nat) (n pos min : Nat) (hn : n ≤ a.length)
    (hpos : pos < n) :
    ∃ r, __frogadvanceUntil a pos n min = Outcome.ok r ∧ pos < r ∧ r ≤ n ∧
      (r < n → min ≤ a.getD r 0) := by
  have hlen : (a.take n).length = n := by rw [List.length_take]; omega
  obtain ⟨r, hr, h1, h2, h3⟩ := frog_total (a.take n) pos min (by omega)
  rw [hlen] at hr h2 h3
  refine ⟨r, by rw [frog_take a n pos min hn hpos]; exact hr, h1, h2, fun hrn => ?_⟩
  have h4 := h3 hrn
  have h5 : (a.take n)[r]? = a[r]? := read_take a n r hrn
  rw [read_eq (a.take n) r (by omega), read_eq a r (by omega)] at h5
  rw [← Option.some.inj h5]
  exact h4

/-- An outcome that is a result or a fault is not a timeout. -/
theorem not_timeout_of_total {α : Type} (o : Outcome (Nat × α)) (p : Prop)
    (h : (∃ c out', o = Outcome.ok (c, out')) ∨ (o = Outcome.fault ∧ p)) :
    o ≠ Outcome.timeout := by
  rcases h with ⟨c, out', h⟩ | ⟨h, _⟩ <;> rw [h] <;> intro hc <;> cases hc

/-- An outcome that is a result, or a fault only for a small region, is a result when the
region is not small. -/
theorem ok_of_total {α : Type} (o : Outcome (Nat × α)) (m cap : Nat) (hcap : m ≤ cap)
    (h : (∃ c out', o = Outcome.ok (c, out')) ∨ (o = Outcome.fault ∧ cap < m)) :
    ∃ c out', o = Outcome.ok (c, out') := by
  rcases h with h | ⟨_, h⟩
  · exact h
  · omega

/-! ## The claims on swapping, termination and safety -/

/-- C11: when the argument passed as "small" is the longer one, the call has the same
outcome (count and output region) as the call with the two arguments exchanged, whatever
the arrays hold. -/
theorem swap_is_transparent (X Y out : List Nat) (lenX lenY : Nat) (h : lenY < lenX) :
    onesidedgallopingintersection X lenX Y lenY out
      = onesidedgallopingintersection Y lenY X lenX out := by
  unfold onesidedgallopingintersection
  rw [if_pos h, if_neg (by omega)]

/-- Witness of C11: the longer array passed as "small". -/
theorem swap_is_transparent_witness :
    onesidedgallopingintersection [0, 1, 2, 3, 4, 5, 6, 7] 8 [2, 5] 2 [0, 0]
      = onesidedgallopingintersection [2, 5] 2 [0, 1, 2, 3, 4, 5, 6, 7] 8 [0, 0] :=
  swap_is_transparent [0, 1, 2, 3, 4, 5, 6, 7] [2, 5] [0, 0] 8 2 (by decide)

/-- C12: on arrays of any contents (sorted or not), called with their true lengths,
`scalar` (either mode), `match_scalar` and `onesidedgallopingintersection` never run out
of the fuel computed from the lengths, and they return whenever the output region holds at
least `min lenA lenB` values; `__frogadvanceUntil` returns for every array and every
`pos < length`. -/
theorem kernels_terminate (e : Bool) (A B out a : List Nat) (pos min : Nat) :
    scalar e A A.length B B.length out ≠ Outcome.timeout ∧
      match_scalar A A.length B B.length out ≠ Outcome.timeout ∧
      onesidedgallopingintersection A A.length B B.length out ≠ Outcome.timeout ∧
      (Nat.min A.length B.length ≤ out.length →
        (∃ c out', scalar e A A.length B B.length out = Outcome.ok (c, out')) ∧
        (∃ c out', match_scalar A A.length B B.length out = Outcome.ok (c, out')) ∧
        (∃ c out', onesidedgallopingintersection A A.length B B.length out
          = Outcome.ok (c, out'))) ∧
      (pos < a.length → ∃ r, __frogadvanceUntil a pos a.length min = Outcome.ok r) := by
  have hs := scalar_total e A B out
  have hm := scalar_total e A B out
  rw [scalar_eq_match e A A.length B B.length out] at hm
  have hg := gallop_total A B out
  refine ⟨not_timeout_of_total _ _ hs, not_timeout_of_total _ _ hm,
    not_timeout_of_total _ _ hg, fun hcap => ?_, fun hpos => ?_⟩
  · exact ⟨ok_of_total _ _ _ hcap hs, ok_of_total _ _ _ hcap hm, ok_of_total _ _ _ hcap hg⟩
  · obtain ⟨r, hr, _⟩ := frog_total a pos min hpos
    exact ⟨r, hr⟩

/-- Witness of C12 on unsorted arrays with repeated values. -/
theorem kernels_terminate_witness :
    (∃ c out', scalar true [3, 1, 2, 2] ([3, 1, 2, 2] : List Nat).length [2, 2, 1]
        ([2, 2, 1] : List Nat).length [0, 0, 0] = Outcome.ok (c, out')) ∧
      (∃ c out', match_scalar [3, 1, 2, 2] ([3, 1, 2, 2] : List Nat).length [2, 2, 1]
        ([2, 2, 1] : List Nat).length [0, 0, 0] = Outcome.ok (c, out')) ∧
      (∃ c out', onesidedgallopingintersection [3, 1, 2, 2] ([3, 1, 2, 2] : List Nat).length
        [2, 2, 1] ([2, 2, 1] : List Nat).length [0, 0, 0] = Outcome.ok (c, out')) ∧
      (∃ r, __frogadvanceUntil [5, 1, 4, 1, 9, 2] 0 ([5, 1, 4, 1, 9, 2] : List Nat).length 3
        = Outcome.ok r) :=
  have h := kernels_terminate true [3, 1, 2, 2] [2, 2, 1] [0, 0, 0] [5, 1, 4, 1, 9, 2] 0 3
  ⟨(h.2.2.2.1 (by decide)).1, (h.2.2.2.1 (by decide)).2.1, (h.2.2.2.1 (by decide)).2.2,
    h.2.2.2.2 (by decide)⟩

/-- C18: for strictly increasing `A` and `B` of equal length, the two argument orders of
`onesidedgallopingintersection` have the same outcome, count and output region; with an
output region of that length both calls return. -/
theorem tie_order_irrelevant (A B out : List Nat) (hA : A.Sorted (· < ·))
    (hB : B.Sorted (· < ·)) (hlen : A.length = B.length) :
    onesidedgallopingintersection A A.length B B.length out
        = onesidedgallopingintersection B B.length A A.length out ∧
      (A.length ≤ out.length →
        ∃ c out', onesidedgallopingintersection A A.length B B.length out
          = Outcome.ok (c, out')) := by
  refine ⟨?_, fun hcap => ?_⟩
  · rw [gallop_sorted A B out hA hB, gallop_sorted B A out hB hA, Finset.inter_comm]
  · have hc := common_card_le A B
    exact ⟨_, _, gallop_sorted_ok A B out hA hB (by omega)⟩

/-- Witness of C18 on two arrays of length three. -/
theorem tie_order_irrelevant_witness :
    onesidedgallopingintersection [1, 4, 9] ([1, 4, 9] : List Nat).length
        [4, 5, 9] ([4, 5, 9] : List Nat).length [0, 0, 0]
        = onesidedgallopingintersection [4, 5, 9] ([4, 5, 9] : List Nat).length
          [1, 4, 9] ([1, 4, 9] : List Nat).length [0, 0, 0] ∧
      (([1, 4, 9] : List Nat).length ≤ ([0, 0, 0] : List Nat).length →
        ∃ c out', onesidedgallopingintersection [1, 4, 9] ([1, 4, 9] : List Nat).length
          [4, 5, 9] ([4, 5, 9] : List Nat).length [0, 0, 0] = Outcome.ok (c, out')) :=
  tie_order_irrelevant [1, 4, 9] [4, 5, 9] [0, 0, 0] (by decide) (by decide) (by decide)

/-- C19: `match_scalar` and `scalar` in materializing mode are the same function: for all
arrays of any contents, all lengths and every initial output region they have the same
outcome, the same count and the same region contents. -/
theorem match_scalar_eq_scalar (A : List Nat) (lenA : Nat) (B : List Nat) (lenB : Nat)
    (out : List Nat) :
    match_scalar A lenA B lenB out = scalar true A lenA B lenB out :=
  (scalar_eq_match true A lenA B lenB out).symm

/-- C20: on an array of any contents with at least `n` elements, for `pos < n` and any
`min`, `__frogadvanceUntil(array, pos, n, min)` reads only indices below `n` (it runs as on
the array cut off after `n` elements, where a read elsewhere would end the run with a
fault) and returns `r` with `pos < r ≤ n` and, when `r < n`, `array[r] ≥ min`; hence
`onesidedgallopingintersection`, given an output region of at least `min lenS lenL`
positions, reads `smallset` and `largeset` only below their lengths and returns. -/
theorem frogadvanceUntil_in_bounds (a : List Nat) (n pos min : Nat) (hn : n ≤ a.length)
    (hpos : pos < n) (S L out : List Nat) (hcap : Nat.min S.length L.length ≤ out.length) :
    __frogadvanceUntil a pos n min = __frogadvanceUntil (a.take n) pos n min ∧
      (∃ r, __frogadvanceUntil a pos n min = Outcome.ok r ∧ pos < r ∧ r ≤ n ∧
        (r < n → ∀ v, a[r]? = some v → min ≤ v)) ∧
      (∃ c out', onesidedgallopingintersection S S.length L L.length out
        = Outcome.ok (c, out')) := by
  refine ⟨frog_take a n pos min hn hpos, ?_, ok_of_total _ _ _ hcap (gallop_total S L out)⟩
  obtain ⟨r, hr, h1, h2, h3⟩ := frog_total_prefix a n pos min hn hpos
  refine ⟨r, hr, h1, h2, fun hrn v hv => ?_⟩
  rw [read_eq a r (by omega)] at hv
  rw [← Option.some.inj hv]
  exact h3 hrn

/-- Witness of C20 on unsorted arrays, the searched array longer than the length passed. -/
theorem frogadvanceUntil_in_bounds_witness :
    __frogadvanceUntil [5, 1, 4, 1, 9, 2, 8, 8] 0 6 3
        = __frogadvanceUntil (([5, 1, 4, 1, 9, 2, 8, 8] : List Nat).take 6) 0 6 3 ∧
      (∃ r, __frogadvanceUntil [5, 1, 4, 1, 9, 2, 8, 8] 0 6 3 = Outcome.ok r ∧ 0 < r ∧ r ≤ 6 ∧
        (r < 6 → ∀ v, ([5, 1, 4, 1, 9, 2, 8, 8] : List Nat)[r]? = some v → 3 ≤ v)) ∧
      (∃ c out', onesidedgallopingintersection [3, 1, 2] ([3, 1, 2] : List Nat).length
        [2, 2, 7, 1] ([2, 2, 7, 1] : List Nat).length [0, 0, 0] = Outcome.ok (c, out')) :=
  frogadvanceUntil_in_bounds [5, 1, 4, 1, 9, 2, 8, 8] 6 0 3 (by decide) (by decide)
    [3, 1, 2] [2, 2, 7, 1] [0, 0, 0] (by decide)

/-! ## The registry -/

theorem allNamesLoop_eq (m : SchemeMap) :
    ∀ ans : List String, allNamesLoop m ans = ans ++ m.map Prod.fst := by
  induction m with
  | nil => intro ans; simp [allNamesLoop]
  | cons entry rest ih => intro ans; simp [allNamesLoop, ih]

theorem allNames_keys (m : SchemeMap) :
    (IntersectionFactory.allNames m).result = m.map Prod.fst := by
  simp [IntersectionFactory.allNames, allNamesLoop_eq]

theorem keysAscending_cons (entry : String × intersectionfunction) (rest : SchemeMap)
    (h : keysAscending (entry :: rest)) :
    (∀ e ∈ rest, entry.1 < e.1) ∧ keysAscending rest := by
  unfold keysAscending at h ⊢
  rw [List.map_cons, List.sorted_cons] at h
  exact ⟨fun e he => h.1 e.1 (List.mem_map_of_mem Prod.fst he), h.2⟩

theorem mapFind_none_iff (m : SchemeMap) (name : String) :
    mapFind m name = none ↔ ∀ v, (name, v) ∉ m := by
  unfold mapFind
  rw [List.find?_eq_none]
  constructor
  · intro h v hv
    exact h (name, v) hv (by simp)
  · intro h e he hkey
    have hk : e.1 = name := by simpa using hkey
    apply h e.2
    rw [← hk]
    exact he

/-- In a map with ascending keys the lookup of a key finds the entry stored under it. -/
theorem mapFind_of_mem (m : SchemeMap) (hm : keysAscending m) (name : String)
    (v : intersectionfunction) (h : (name, v) ∈ m) : mapFind m name = some (name, v) := by
  induction m with
  | nil => cases h
  | cons entry rest ih =>
    obtain ⟨hlt, hrest⟩ := keysAscending_cons entry rest hm
    unfold mapFind at ih ⊢
    rw [List.find?_cons]
    rcases List.mem_cons.mp h with heq | hin
    · rw [← heq]
      simp
    · have hne : entry.1 ≠ name := by
        intro hk
        have := hlt (name, v) hin
        simp only [hk] at this
        exact lt_irrefl _ this
      have hb : (entry.1 == name) = false := by simpa using hne
      simp only [hb]
      exact ih hrest hin

theorem getNameLoop_unknown (m : SchemeMap) (v : intersectionfunction)
    (h : ∀ e ∈ m, e.2 ≠ v) : getNameLoop m v = "UNKNOWN" := by
  induction m with
  | nil => rfl
  | cons entry rest ih =>
    have hne : (entry.2 == v) = false := by simpa using h entry (List.mem_cons_self _ _)
    simp only [getNameLoop, hne, Bool.false_eq_true, if_false]
    exact ih (fun e he => h e (List.mem_cons_of_mem _ he))

/-- The loop of `getName` returns the key of an entry with value `v`, the first in
iteration order and therefore the smallest such key. -/
theorem getNameLoop_found (m : SchemeMap) (v : intersectionfunction)
    (h : ∃ e ∈ m, e.2 = v) :
    (getNameLoop m v, v) ∈ m ∧
      (keysAscending m → ∀ e ∈ m, e.2 = v → getNameLoop m v ≤ e.1) := by
  induction m with
  | nil =>
    obtain ⟨e, he, _⟩ := h
    cases he
  | cons entry rest ih =>
    by_cases hv : entry.2 = v
    · have hb : (entry.2 == v) = true := by simpa using hv
      simp only [getNameLoop, hb, if_true]
      constructor
      · rw [← hv]
        exact List.mem_cons_self _ _
      · intro hm e he _
        rcases List.mem_cons.mp he with heq | hin
        · rw [heq]
        · exact le_of_lt ((keysAscending_cons entry rest hm).1 e hin)
    · have hb : (entry.2 == v) = false := by simpa using hv
      simp only [getNameLoop, hb, Bool.false_eq_true, if_false]
      have hrest : ∃ e ∈ rest, e.2 = v := by
        obtain ⟨e, he, hev⟩ := h
        rcases List.mem_cons.mp he with heq | hin
        · rw [heq] at hev
          exact absurd hev hv
        · exact ⟨e, hin, hev⟩
      obtain ⟨h1, h2⟩ := ih hrest
      constructor
      · exact List.mem_cons_of_mem _ h1
      · intro hm e he hev
        rcases List.mem_cons.mp he with heq | hin
        · rw [heq] at hev
          exact absurd hev hv
        · exact h2 (keysAscending_cons entry rest hm).2 e hin hev

/-- The value returned by `getFromName` for a key that is registered. -/
theorem getFromName_of_mem (m : SchemeMap) (hm : keysAscending m) (name : String)
    (v : intersectionfunction) (h : (name, v) ∈ m) :
    (IntersectionFactory.getFromName m name).result = v := by
  have hf := mapFind_of_mem m hm name v h
  simp [IntersectionFactory.getFromName, mapSubscript, hf]

/-- The value returned by `getFromName` for a key that is not registered. -/
theorem getFromName_of_not_mem (m : SchemeMap) (name : String)
    (h : ∀ v, (name, v) ∉ m) : (IntersectionFactory.getFromName m name).result = NULL := by
  have hf := (mapFind_none_iff m name).mpr h
  simp [IntersectionFactory.getFromName, hf]

theorem valid_iff (m : SchemeMap) (name : String) :
    (IntersectionFactory.valid m name).result = true ↔ ∃ v, (name, v) ∈ m := by
  constructor
  · intro h
    by_contra hcon
    have hf := (mapFind_none_iff m name).mpr (fun v hv => hcon ⟨v, hv⟩)
    simp [IntersectionFactory.valid, hf] at h
  · rintro ⟨v, hv⟩
    by_contra hcon
    have hnone : mapFind m name = none := by
      simpa [IntersectionFactory.valid] using hcon
    exact (mapFind_none_iff m name).mp hnone v hv

theorem mem_keys_iff (m : SchemeMap) (name : String) :
    name ∈ m.map Prod.fst ↔ ∃ v, (name, v) ∈ m := by
  simp

/-- The keys of a small registry used in the witnesses are ascending. -/
theorem keysAscending_sample :
    keysAscending [("galloping", some 1), ("scalar", some 2), ("simd", some 1)] := by
  simp [keysAscending]
  decide

/-! ## The claims on the registry -/

/-- C13: for every registry contents and every kernel `k` that is the value of at least one
entry, `getFromName(getName(k)) == k`. -/
theorem getFromName_getName (m : SchemeMap) (hm : keysAscending m)
    (k : intersectionfunction) (hk : ∃ name, (name, k) ∈ m) :
    (IntersectionFactory.getFromName m (IntersectionFactory.getName m k).result).result
      = k := by
  obtain ⟨name, hname⟩ := hk
  have hfound := (getNameLoop_found m k ⟨(name, k), hname, rfl⟩).1
  exact getFromName_of_mem m hm _ k hfound

/-- Witness of C13: a kernel registered under two names. -/
theorem getFromName_getName_witness :
    (IntersectionFactory.getFromName
        [("galloping", some 1), ("scalar", some 2), ("simd", some 1)]
        (IntersectionFactory.getName
          [("galloping", some 1), ("scalar", some 2), ("simd", some 1)] (some 1)).result).result
      = some 1 :=
  getFromName_getName [("galloping", some 1), ("scalar", some 2), ("simd", some 1)]
    keysAscending_sample (some 1) ⟨"simd", by decide⟩

/-- C14: for every registry contents and every name, `valid(name)` holds exactly when the
name is in `allNames()`, that is when it is a registered key; for a name that is not a
registered key `getFromName(name)` returns `NULL`, and for a registered key it returns the
kernel stored under it. -/
theorem getFromName_lookup (m : SchemeMap) (hm : keysAscending m) (name : String) :
    ((IntersectionFactory.valid m name).result = true ↔
        name ∈ (IntersectionFactory.allNames m).result) ∧
      ((IntersectionFactory.valid m name).result = false →
        (IntersectionFactory.getFromName m name).result = NULL) ∧
      (∀ v, (name, v) ∈ m → (IntersectionFactory.getFromName m name).result = v) := by
  refine ⟨?_, ?_, fun v hv => getFromName_of_mem m hm name v hv⟩
  · rw [allNames_keys, mem_keys_iff, valid_iff]
  · intro hfalse
    apply getFromName_of_not_mem
    intro v hv
    have := (valid_iff m name).mpr ⟨v, hv⟩
    rw [hfalse] at this
    cases this

/-- Witness of C14: an unregistered name. -/
theorem getFromName_lookup_witness :
    ((IntersectionFactory.valid [("galloping", some 1), ("scalar", some 2), ("simd", some 1)]
          "avx").result = true ↔
        "avx" ∈ (IntersectionFactory.allNames
          [("galloping", some 1), ("scalar", some 2), ("simd", some 1)]).result) ∧
      ((IntersectionFactory.valid [("galloping", some 1), ("scalar", some 2), ("simd", some 1)]
          "avx").result = false →
        (IntersectionFactory.getFromName
          [("galloping", some 1), ("scalar", some 2), ("simd", some 1)] "avx").result = NULL) ∧
      (∀ v, ("avx", v) ∈ ([("galloping", some 1), ("scalar", some 2), ("simd", some 1)] :
          SchemeMap) →
        (IntersectionFactory.getFromName
          [("galloping", some 1), ("scalar", some 2), ("simd", some 1)] "avx").result = v) :=
  getFromName_lookup [("galloping", some 1), ("scalar", some 2), ("simd", some 1)]
    keysAscending_sample "avx"

/-- C15: for every registry contents and every kernel reference `v`: when no entry has the
value `v`, `getName(v)` returns `"UNKNOWN"`; otherwise it returns a name registered with the
value `v`, the lexicographically smallest such name. -/
theorem getName_smallest (m : SchemeMap) (hm : keysAscending m) (v : intersectionfunction) :
    ((∀ e ∈ m, e.2 ≠ v) → (IntersectionFactory.getName m v).result = "UNKNOWN") ∧
      ((∃ e ∈ m, e.2 = v) →
        ((IntersectionFactory.getName m v).result, v) ∈ m ∧
          ∀ e ∈ m, e.2 = v → (IntersectionFactory.getName m v).result ≤ e.1) := by
  refine ⟨fun h => getNameLoop_unknown m v h, fun h => ?_⟩
  obtain ⟨h1, h2⟩ := getNameLoop_found m v h
  exact ⟨h1, h2 hm⟩

/-- Witness of C15: a kernel registered under two names. -/
theorem getName_smallest_witness :
    ((IntersectionFactory.getName [("galloping", some 1), ("scalar", some 2), ("simd", some 1)]
          (some 1)).result, some 1) ∈
        ([("galloping", some 1), ("scalar", some 2), ("simd", some 1)] : SchemeMap) ∧
      ∀ e ∈ ([("galloping", some 1), ("scalar", some 2), ("simd", some 1)] : SchemeMap),
        e.2 = some 1 →
        (IntersectionFactory.getName [("galloping", some 1), ("scalar", some 2), ("simd", some 1)]
          (some 1)).result ≤ e.1 :=
  (getName_smallest [("galloping", some 1), ("scalar", some 2), ("simd", some 1)]
    keysAscending_sample (some 1)).2 ⟨("simd", some 1), by decide, rfl⟩

/-- C16: for every registry contents, `allNames()` returns exactly the registered names,
each once, in strictly ascending lexicographic order; its length is the number of
entries. -/
theorem allNames_exact (m : SchemeMap) (hm : keysAscending m) :
    (∀ name, name ∈ (IntersectionFactory.allNames m).result ↔ ∃ v, (name, v) ∈ m) ∧
      (IntersectionFactory.allNames m).result.Sorted (· < ·) ∧
      (IntersectionFactory.allNames m).result.Nodup ∧
      (IntersectionFactory.allNames m).result.length = m.length := by
  rw [allNames_keys]
  exact ⟨fun name => mem_keys_iff m name, hm, List.Sorted.nodup hm, List.length_map m _⟩

/-- Witness of C16 on a registry of three entries. -/
theorem allNames_exact_witness :
    (∀ name, name ∈ (IntersectionFactory.allNames
          [("galloping", some 1), ("scalar", some 2), ("simd", some 1)]).result ↔
        ∃ v, (name, v) ∈
          ([("galloping", some 1), ("scalar", some 2), ("simd", some 1)] : SchemeMap)) ∧
      (IntersectionFactory.allNames
        [("galloping", some 1), ("scalar", some 2), ("simd", some 1)]).result.Sorted (· < ·) ∧
      (IntersectionFactory.allNames
        [("galloping", some 1), ("scalar", some 2), ("simd", some 1)]).result.Nodup ∧
      (IntersectionFactory.allNames
        [("galloping", some 1), ("scalar", some 2), ("simd", some 1)]).result.length
        = ([("galloping", some 1), ("scalar", some 2), ("simd", some 1)] : SchemeMap).length :=
  allNames_exact [("galloping", some 1), ("scalar", some 2), ("simd", some 1)]
    keysAscending_sample

/-- C17: no registry operation changes the registry: after `allNames`, `getName`, `valid`
and `getFromName`, with any argument, `intersection_schemes` holds the entries it held
before; in particular `getFromName` on an unregistered name inserts nothing. -/
theorem registry_unchanged (m : SchemeMap) (v : intersectionfunction) (name : String) :
    (IntersectionFactory.allNames m).schemes = m ∧
      (IntersectionFactory.getName m v).schemes = m ∧
      (IntersectionFactory.valid m name).schemes = m ∧
      (IntersectionFactory.getFromName m name).schemes = m := by
  refine ⟨rfl, rfl, rfl, ?_⟩
  unfold IntersectionFactory.getFromName
  cases hf : mapFind m name with
  | none => simp
  | some entry => simp [mapSubscript, hf]

end SIMDCompressionLib
